import Mathlib

/-!
Shallow embedding of `src/lottie_filter/lottie_filter.py`.

The Python module walks a decoded Lottie JSON document and rewrites every
color it recognizes, applying hue rotation, saturation, contrast and
brightness.  Python floats are modelled as exact rationals (`ℚ`); a Python
run that raises an exception (`TypeError`, `ZeroDivisionError`) is modelled
as `none` in the `Option` monad, and a run that returns normally as `some`
of the resulting value.  JSON values are modelled by the inductive `JSON`;
Python `dict`s become association lists in insertion order.
-/

/-- Configuration record, translated from the `Config` dataclass:
contrast multiplier, additive brightness, saturation blend factor and hue
rotation in degrees. -/
structure Config where
  contrast : ℚ
  brightness : ℚ
  saturation : ℚ
  hue_deg : ℚ

/-- Python `max(0, min(1, x))`, the clamping used by the contrast and
brightness stages. -/
def clamp01 (x : ℚ) : ℚ := max 0 (min 1 x)

/-- Translated from `lerp(a, b, t) = a + (b - a) * t`. -/
def lerp (a b t : ℚ) : ℚ := a + (b - a) * t

/-- Python `x % 1.0` on a float: the fractional part, always in `[0, 1)`. -/
def pymod1 (x : ℚ) : ℚ := x - ⌊x⌋

/-- Python `int(x)` on a float: truncation toward zero. -/
def pytrunc (x : ℚ) : ℤ := if 0 ≤ x then ⌊x⌋ else ⌈x⌉

/-- Translated from CPython `colorsys.rgb_to_hsv`.  Returns `none` exactly
when Python raises `ZeroDivisionError`, i.e. when the channels are not all
equal but their maximum is `0`. -/
def rgb_to_hsv (r g b : ℚ) : Option (ℚ × ℚ × ℚ) :=
  let maxc := max r (max g b)
  let minc := min r (min g b)
  if minc = maxc then some (0, 0, maxc)
  else if maxc = 0 then none
  else
    let s := (maxc - minc) / maxc
    let rc := (maxc - r) / (maxc - minc)
    let gc := (maxc - g) / (maxc - minc)
    let bc := (maxc - b) / (maxc - minc)
    let h := if r = maxc then bc - gc
             else if g = maxc then 2 + rc - bc
             else 4 + gc - rc
    some (pymod1 (h / 6), s, maxc)

/-- Translated from CPython `colorsys.hsv_to_rgb`.  Since
`i = int(h*6.0) % 6` always lies in `[0, 6)`, the six returns of the Python
source are exhaustive; the final branch is the `i == 5` return. -/
def hsv_to_rgb (h s v : ℚ) : ℚ × ℚ × ℚ :=
  if s = 0 then (v, v, v)
  else
    let i0 := pytrunc (h * 6)
    let f := h * 6 - (i0 : ℚ)
    let p := v * (1 - s)
    let q := v * (1 - s * f)
    let t := v * (1 - s * (1 - f))
    let i := i0 % 6
    if i = 0 then (v, t, p)
    else if i = 1 then (q, v, p)
    else if i = 2 then (p, v, t)
    else if i = 3 then (p, q, v)
    else if i = 4 then (t, p, v)
    else (v, p, q)

/-- Hue-shift stage of `adjust_color_triplet`: skipped exactly when
`cfg.hue_deg` is zero (Python float truthiness of `if cfg.hue_deg:`). -/
def applyHue (cfg : Config) (r g b : ℚ) : Option (ℚ × ℚ × ℚ) :=
  if cfg.hue_deg = 0 then some (r, g, b)
  else do
    let (h, s, v) ← rgb_to_hsv r g b
    some (hsv_to_rgb (pymod1 (h + cfg.hue_deg / 360)) s v)

/-- Saturation, contrast and brightness stages of `adjust_color_triplet`,
in source order: luma blend, then contrast with clamping, then brightness
with clamping. -/
def satContrastBright (cfg : Config) (r1 g1 b1 : ℚ) : ℚ × ℚ × ℚ :=
  let gray := 299/1000 * r1 + 587/1000 * g1 + 114/1000 * b1
  let r2 := lerp gray r1 cfg.saturation
  let g2 := lerp gray g1 cfg.saturation
  let b2 := lerp gray b1 cfg.saturation
  let r3 := clamp01 (1/2 + cfg.contrast * (r2 - 1/2))
  let g3 := clamp01 (1/2 + cfg.contrast * (g2 - 1/2))
  let b3 := clamp01 (1/2 + cfg.contrast * (b2 - 1/2))
  (clamp01 (r3 + cfg.brightness), clamp01 (g3 + cfg.brightness),
    clamp01 (b3 + cfg.brightness))

/-- Translated from `adjust_color_triplet(r, g, b, cfg)`: optional hue
rotation followed by saturation, contrast and brightness. -/
def adjust_color_triplet (r g b : ℚ) (cfg : Config) : Option (ℚ × ℚ × ℚ) :=
  (applyHue cfg r g b).map fun t => satContrastBright cfg t.1 t.2.1 t.2.2

/-- Generic JSON tree as produced by `json.load`: numbers, strings,
booleans, null, arrays and objects (association lists in insertion
order). -/
inductive JSON where
  | num (q : ℚ)
  | str (s : String)
  | bool (b : Bool)
  | null
  | arr (elems : List JSON)
  | obj (entries : List (String × JSON))

/-- Numeric view of a JSON scalar for Python arithmetic: numbers are
themselves, booleans coerce to `1`/`0`; strings, `None`, lists and dicts
raise `TypeError` when fed to float arithmetic. -/
def toNum : JSON → Option ℚ
  | .num q => some q
  | .bool b => some (if b then 1 else 0)
  | _ => none

/-- Adjusting a triplet of JSON values: Python raises `TypeError` unless
all three are numeric, after which `adjust_color_triplet` runs. -/
def adjustTripletJ (r g b : JSON) (cfg : Config) : Option (ℚ × ℚ × ℚ) := do
  adjust_color_triplet (← toNum r) (← toNum g) (← toNum b) cfg

/-- Translated from `adjust_rgba(color, cfg)`: a non-list or a list with
fewer than 3 elements is returned unchanged; otherwise the first three
elements are adjusted and the result is the 4-element list
`[r, g, b, a]` with `a = color[3]` when present and `1` otherwise. -/
def adjust_rgba (color : JSON) (cfg : Config) : Option JSON :=
  match color with
  | .arr (r :: g :: b :: rest) => do
      let t ← adjustTripletJ r g b cfg
      some (.arr [.num t.1, .num t.2.1, .num t.2.2, rest.headD (.num 1)])
  | c => some c

/-- Loop body of `adjust_gradient`: `for i in range(0, len(arr)-3, 4)`
processes the group starting at `i` exactly when at least 4 elements
remain, adjusting the three channels after the leading offset. -/
def adjust_gradient_arr (cfg : Config) : List JSON → Option (List JSON)
  | o :: r :: g :: b :: rest => do
      let t ← adjustTripletJ r g b cfg
      let rest' ← adjust_gradient_arr cfg rest
      some (o :: .num t.1 :: .num t.2.1 :: .num t.2.2 :: rest')
  | l => some l

/-- Python `d.get(key)` on a dict: the value of the first matching entry. -/
def lookupKey (kvs : List (String × JSON)) (s : String) : Option JSON :=
  match kvs with
  | [] => none
  | (k, v) :: rest => if k = s then some v else lookupKey rest s

/-- Python `d[key] = v` on a dict: overwrite the existing entry in place,
or append a new one when the key is absent. -/
def setKey : List (String × JSON) → String → JSON → List (String × JSON)
  | [], s, v => [(s, v)]
  | (k, w) :: rest, s, v =>
      if k = s then (s, v) :: rest else (k, w) :: setKey rest s v

/-- Python substring test `needle in hay` on strings. -/
def strContainsSub (hay needle : String) : Bool :=
  hay.data.tails.any fun t => needle.data.isPrefixOf t

/-- One statement `if key in f: f[key] = adjust_rgba(f[key], cfg)` of the
keyframe loop.  On a dict the entry is overwritten; on a list or string a
positive membership test leads to a `TypeError` on the string lookup; on
any other value the membership test itself raises `TypeError`. -/
def setField (f : JSON) (s : String) (cfg : Config) : Option JSON :=
  match f with
  | .obj kvs =>
      match lookupKey kvs s with
      | some v => do
          let v' ← adjust_rgba v cfg
          some (.obj (setKey kvs s v'))
      | none => some (.obj kvs)
  | .str t => if strContainsSub t s then none else some (.str t)
  | .arr xs =>
      if xs.any (fun j => match j with | .str u => u == s | _ => false)
      then none else some (.arr xs)
  | _ => none

/-- Body of `for f in k:` in the keyframe branch: update the optional
`"s"` field, then the optional `"e"` field. -/
def processKeyframe (f : JSON) (cfg : Config) : Option JSON := do
  let f1 ← setField f "s" cfg
  setField f1 "e" cfg

/-- The keyframe loop over all entries of the `"k"` list. -/
def mapKeyframes : List JSON → Config → Option (List JSON)
  | [], _ => some []
  | f :: rest, cfg => do
      let f' ← processKeyframe f cfg
      let rest' ← mapKeyframes rest cfg
      some (f' :: rest')

/-- Test `isinstance(k[0], dict)` guarded by `len(k) > 0`. -/
def headIsObj : List JSON → Bool
  | .obj _ :: _ => true
  | _ => false

/-- Test `isinstance(val, dict)`. -/
def isObj : JSON → Bool
  | .obj _ => true
  | _ => false

/-- Test `key in ("c", "fc", "sc", "lc")`. -/
def isColorKey (key : String) : Bool :=
  key == "c" || key == "fc" || key == "sc" || key == "lc"

/-- Branch of `recurse` for a direct-color key whose value is the dict
`m`: if `m["k"]` is a list of length at least 3 it is replaced by its
adjusted RGBA; otherwise, if it is a list headed by a dict, every keyframe
entry is updated; any other shape is left untouched. -/
def processDirectColor (m : List (String × JSON)) (cfg : Config) :
    Option JSON :=
  match lookupKey m "k" with
  | some (.arr ks) =>
      if 3 ≤ ks.length then do
        let k' ← adjust_rgba (.arr ks) cfg
        some (.obj (setKey m "k" k'))
      else if headIsObj ks then do
        let ks' ← mapKeyframes ks cfg
        some (.obj (setKey m "k" (.arr ks')))
      else some (.obj m)
  | _ => some (.obj m)

/-- Branch of `recurse` for the key `"g"` whose value is the dict `m`:
when `m["k"]` is a dict whose own `"k"` is a list, `adjust_gradient`
rewrites that innermost list; any other shape is left untouched. -/
def processGradient (m : List (String × JSON)) (cfg : Config) :
    Option JSON :=
  match lookupKey m "k" with
  | some (.obj m2) =>
      match lookupKey m2 "k" with
      | some (.arr arr) => do
          let arr' ← adjust_gradient_arr cfg arr
          some (.obj (setKey m "k" (.obj (setKey m2 "k" (.arr arr')))))
      | _ => some (.obj m)
  | _ => some (.obj m)

mutual
/-- Translated from `recurse(obj, cfg)`: dispatch on dict, list or
scalar. -/
def recurse (j : JSON) (cfg : Config) : Option JSON :=
  match j with
  | .obj kvs => do some (.obj (← recurseEntries kvs cfg))
  | .arr xs => do some (.arr (← recurseElems xs cfg))
  | other => some other
termination_by sizeOf j
decreasing_by all_goals (simp_wf <;> omega)

/-- The `for key, val in obj.items():` loop of `recurse`: the
direct-color branch and the gradient branch both require a dict value;
every other entry falls through to the generic recursion. -/
def recurseEntries (kvs : List (String × JSON)) (cfg : Config) :
    Option (List (String × JSON)) :=
  match kvs with
  | [] => some []
  | (key, val) :: rest => do
      let val' ←
        match val with
        | .obj m =>
            if isColorKey key then processDirectColor m cfg
            else if key == "g" then processGradient m cfg
            else recurse (.obj m) cfg
        | v => recurse v cfg
      let rest' ← recurseEntries rest cfg
      some ((key, val') :: rest')
termination_by sizeOf kvs
decreasing_by all_goals (simp_wf <;> omega)

/-- The `for v in obj:` loop of `recurse` on a list. -/
def recurseElems (xs : List JSON) (cfg : Config) : Option (List JSON) :=
  match xs with
  | [] => some []
  | x :: rest => do
      let x' ← recurse x cfg
      let rest' ← recurseElems rest cfg
      some (x' :: rest')
termination_by sizeOf xs
decreasing_by all_goals (simp_wf <;> omega)
end

/-- Loop body of `recurse` for one `(key, val)` entry, as a standalone
function (the equation `recurseEntries_cons` below relates it to the
loop). -/
def processEntry (key : String) (val : JSON) (cfg : Config) : Option JSON :=
  match val with
  | .obj m =>
      if isColorKey key then processDirectColor m cfg
      else if key == "g" then processGradient m cfg
      else recurse (.obj m) cfg
  | v => recurse v cfg

mutual
/-- Sufficient syntactic condition for a tree to contain no entry that any
color branch of `recurse` can fire on: no object entry pairs one of the
five special keys with a dict value. -/
def noColorKeys (j : JSON) : Bool :=
  match j with
  | .obj kvs => nckEntries kvs
  | .arr xs => nckElems xs
  | _ => true
termination_by sizeOf j
decreasing_by all_goals (simp_wf <;> omega)

/-- Entry-wise check for `noColorKeys` on an object. -/
def nckEntries (kvs : List (String × JSON)) : Bool :=
  match kvs with
  | [] => true
  | (key, val) :: rest =>
      (!((isColorKey key || key == "g") && isObj val)) &&
        noColorKeys val && nckEntries rest
termination_by sizeOf kvs
decreasing_by all_goals (simp_wf <;> omega)

/-- Element-wise check for `noColorKeys` on an array. -/
def nckElems (xs : List JSON) : Bool :=
  match xs with
  | [] => true
  | x :: rest => noColorKeys x && nckElems rest
termination_by sizeOf xs
decreasing_by all_goals (simp_wf <;> omega)
end

/-- Test for a non-container JSON value. -/
def isScalar : JSON → Bool
  | .arr _ => false
  | .obj _ => false
  | _ => true

/-- Structure-preservation relation: object entries correspond pairwise
with identical keys in order; arrays correspond either pointwise or
through the RGBA normalization, whose output always has exactly 4
elements with scalar channels in the first three positions; values at
scalar positions stay scalars. -/
inductive KeysPreserved : JSON → JSON → Prop where
  | scalar (a b : JSON) (ha : isScalar a = true) (hb : isScalar b = true) :
      KeysPreserved a b
  | arr (xs ys : List JSON) (h : List.Forall₂ KeysPreserved xs ys) :
      KeysPreserved (.arr xs) (.arr ys)
  | arr_rgba (xs ys : List JSON) (hlen : ys.length = 4)
      (hsc : ∀ y ∈ ys.take 3, isScalar y = true) :
      KeysPreserved (.arr xs) (.arr ys)
  | obj (kvs kvs' : List (String × JSON))
      (hkeys : kvs.map Prod.fst = kvs'.map Prod.fst)
      (hvals : List.Forall₂ KeysPreserved (kvs.map Prod.snd)
        (kvs'.map Prod.snd)) :
      KeysPreserved (.obj kvs) (.obj kvs')

/-- Entry relation of the frame theorems: the key is preserved and, unless
the key is `"k"`, the whole entry is returned verbatim. -/
def kOnly (a b : String × JSON) : Prop :=
  b.1 = a.1 ∧ (a.1 ≠ "k" → b = a)

/-- What the gradient branch may do to the value stored under `"k"` of
the dict below `"g"`: either it is untouched, or it is a dict whose
entries other than its own `"k"` are returned verbatim. -/
def gradKFrame (v w : JSON) : Prop :=
  w = v ∨ ∃ inner inner2, v = .obj inner ∧ w = .obj inner2 ∧
    List.Forall₂ kOnly inner inner2

/-- Entry relation for the dict below `"g"`: keys preserved, entries not
named `"k"` verbatim, and the `"k"` value constrained by `gradKFrame`. -/
def gradEntry (a b : String × JSON) : Prop :=
  b.1 = a.1 ∧ (a.1 ≠ "k" → b = a) ∧ (a.1 = "k" → gradKFrame a.2 b.2)

mutual
/-- Frame relation of the locator: scalars are returned identical, arrays
correspond pointwise, and object entries are constrained by the dispatch
of the entry loop, so that only values reachable through a recognized
color shape are allowed to change. -/
def framePres (a b : JSON) : Prop :=
  match a, b with
  | .arr xs, .arr ys => fpElems xs ys
  | .obj kvs, .obj kvs2 => fpEntries kvs kvs2
  | a, b => b = a
termination_by sizeOf a
decreasing_by all_goals (simp_wf <;> omega)

/-- Pointwise frame relation on array elements. -/
def fpElems (xs ys : List JSON) : Prop :=
  match xs, ys with
  | [], [] => True
  | x :: rest, y :: rest2 => framePres x y ∧ fpElems rest rest2
  | _, _ => False
termination_by sizeOf xs
decreasing_by all_goals (simp_wf <;> omega)

/-- Pairwise frame relation on object entries: keys identical in order,
values constrained entry by entry. -/
def fpEntries (kvs kvs2 : List (String × JSON)) : Prop :=
  match kvs, kvs2 with
  | [], [] => True
  | (k, v) :: rest, (k2, v2) :: rest2 =>
      k2 = k ∧ fpEntry k v v2 ∧ fpEntries rest rest2
  | _, _ => False
termination_by sizeOf kvs
decreasing_by all_goals (simp_wf <;> omega)

/-- Frame guarantee of a single entry, following the dispatch of the
entry loop: a dict under a direct-color key may change at most its `"k"`
entry; a dict under `"g"` may change at most its `"k"` entry and, inside
it, at most that dict's own `"k"` entry; every other value obeys the
frame relation recursively. -/
def fpEntry (key : String) (v v2 : JSON) : Prop :=
  match v with
  | .obj m =>
      if isColorKey key then
        ∃ m2, v2 = .obj m2 ∧ List.Forall₂ kOnly m m2
      else if key == "g" then
        ∃ m2, v2 = .obj m2 ∧ List.Forall₂ gradEntry m m2
      else framePres (.obj m) v2
  | v => framePres v v2
termination_by sizeOf v + 1
decreasing_by all_goals (simp_wf <;> omega)
end

/-- The entry loop is entry-wise `processEntry`. -/
theorem recurseEntries_cons (key : String) (val : JSON)
    (rest : List (String × JSON)) (cfg : Config) :
    recurseEntries ((key, val) :: rest) cfg =
      (do
        let val' ← processEntry key val cfg
        let rest' ← recurseEntries rest cfg
        some ((key, val') :: rest')) := by
  cases val <;> simp only [recurseEntries, processEntry]
  by_cases h1 : isColorKey key
  · simp [h1]
  · by_cases h2 : key == "g" <;> simp [h1, h2]

/-! ## Basic lemmas about the clamping stages -/

theorem clamp01_nonneg (x : ℚ) : 0 ≤ clamp01 x := le_max_left _ _

theorem clamp01_le_one (x : ℚ) : clamp01 x ≤ 1 :=
  max_le (by norm_num) (min_le_left _ _)

theorem clamp01_eq_self {x : ℚ} (h0 : 0 ≤ x) (h1 : x ≤ 1) : clamp01 x = x := by
  unfold clamp01
  rw [min_eq_right h1, max_eq_right h0]

/-- C7: whenever `adjust_color_triplet` returns a triplet, each of the
three returned channels lies within `[0, 1]`, because the contrast stage
and the brightness stage both clamp every channel into `[0, 1]`. -/
theorem C7_output_clamped (r g b : ℚ) (cfg : Config) (r' g' b' : ℚ)
    (h : adjust_color_triplet r g b cfg = some (r', g', b')) :
    (0 ≤ r' ∧ r' ≤ 1) ∧ (0 ≤ g' ∧ g' ≤ 1) ∧ (0 ≤ b' ∧ b' ≤ 1) := by
  unfold adjust_color_triplet at h
  rw [Option.map_eq_some'] at h
  obtain ⟨a, -, ha⟩ := h
  simp only [satContrastBright] at ha
  rw [Prod.mk.injEq, Prod.mk.injEq] at ha
  obtain ⟨h1, h2, h3⟩ := ha
  exact ⟨h1 ▸ ⟨clamp01_nonneg _, clamp01_le_one _⟩,
         h2 ▸ ⟨clamp01_nonneg _, clamp01_le_one _⟩,
         h3 ▸ ⟨clamp01_nonneg _, clamp01_le_one _⟩⟩

theorem C7_output_clamped_witness :
    adjust_color_triplet 2 0 0 ⟨1, 0, 1, 0⟩ = some (1, 0, 0) ∧
      ((0 ≤ (1:ℚ) ∧ (1:ℚ) ≤ 1) ∧ (0 ≤ (0:ℚ) ∧ (0:ℚ) ≤ 1) ∧
        (0 ≤ (0:ℚ) ∧ (0:ℚ) ≤ 1)) :=
  ⟨by norm_num [adjust_color_triplet, applyHue, satContrastBright, lerp,
      clamp01, min_def, max_def],
   C7_output_clamped 2 0 0 ⟨1, 0, 1, 0⟩ 1 0 0
     (by norm_num [adjust_color_triplet, applyHue, satContrastBright, lerp,
        clamp01, min_def, max_def])⟩

/-- The three non-hue stages are the identity at neutral settings on an
in-range channel. -/
theorem satContrastBright_neutral (r g b : ℚ)
    (hr0 : 0 ≤ r) (hr1 : r ≤ 1) (hg0 : 0 ≤ g) (hg1 : g ≤ 1)
    (hb0 : 0 ≤ b) (hb1 : b ≤ 1) :
    satContrastBright ⟨1, 0, 1, 0⟩ r g b = (r, g, b) := by
  have step : ∀ x y : ℚ, 0 ≤ x → x ≤ 1 →
      clamp01 (clamp01 (1/2 + 1 * (lerp y x 1 - 1/2)) + 0) = x := by
    intro x y h0 h1
    have e1 : lerp y x 1 = x := by simp [lerp]
    have e2 : (1:ℚ)/2 + 1 * (x - 1/2) = x := by ring
    rw [e1, e2, clamp01_eq_self h0 h1, add_zero, clamp01_eq_self h0 h1]
  simp only [satContrastBright]
  rw [Prod.mk.injEq, Prod.mk.injEq]
  exact ⟨step r _ hr0 hr1, step g _ hg0 hg1, step b _ hb0 hb1⟩

/-- C8 (amended): with contrast 1, brightness 0, saturation 1 and hue 0,
`adjust_color_triplet` returns its input unchanged for every triplet whose
channels lie in `[0, 1]`.  (The unamended claim over all triplets fails:
out-of-range channels are clamped, see the counterexample.) -/
theorem C8_neutral_identity (r g b : ℚ)
    (hr0 : 0 ≤ r) (hr1 : r ≤ 1) (hg0 : 0 ≤ g) (hg1 : g ≤ 1)
    (hb0 : 0 ≤ b) (hb1 : b ≤ 1) :
    adjust_color_triplet r g b ⟨1, 0, 1, 0⟩ = some (r, g, b) := by
  have h1 : applyHue ⟨1, 0, 1, 0⟩ r g b = some (r, g, b) := by
    simp [applyHue]
  unfold adjust_color_triplet
  rw [h1, Option.map_some']
  rw [satContrastBright_neutral r g b hr0 hr1 hg0 hg1 hb0 hb1]

/-- C8 counterexample: at the neutral configuration the triplet
`(2, 0, 0)` is not returned unchanged — the contrast stage clamps the
first channel to `1`. -/
theorem C8_counterexample :
    adjust_color_triplet 2 0 0 ⟨1, 0, 1, 0⟩ ≠ some (2, 0, 0) := by
  have h : adjust_color_triplet 2 0 0 ⟨1, 0, 1, 0⟩ = some (1, 0, 0) := by
    norm_num [adjust_color_triplet, applyHue, satContrastBright, lerp,
      clamp01, min_def, max_def]
  rw [h]
  intro hc
  rw [Option.some.injEq, Prod.mk.injEq] at hc
  norm_num at hc

theorem C8_neutral_identity_witness :
    ((0 ≤ (1/2 : ℚ) ∧ (1/2 : ℚ) ≤ 1) ∧ (0 ≤ (1/4 : ℚ) ∧ (1/4 : ℚ) ≤ 1) ∧
      (0 ≤ (3/4 : ℚ) ∧ (3/4 : ℚ) ≤ 1)) ∧
    adjust_color_triplet (1/2) (1/4) (3/4) ⟨1, 0, 1, 0⟩ =
      some (1/2, 1/4, 3/4) :=
  ⟨⟨⟨by norm_num, by norm_num⟩, ⟨by norm_num, by norm_num⟩,
    ⟨by norm_num, by norm_num⟩⟩,
   C8_neutral_identity (1/2) (1/4) (3/4) (by norm_num) (by norm_num)
     (by norm_num) (by norm_num) (by norm_num) (by norm_num)⟩


/-- Unfolding lemma for the `Option` bind produced by `do` notation. -/
theorem ob_eq_some {α β : Type} {x : Option α} {f : α → Option β} {b : β} :
    ((do let a ← x; f a) = some b) ↔ ∃ a, x = some a ∧ f a = some b :=
  Option.bind_eq_some

/-- Reduction of the `Option` bind on a `some`. -/
theorem ob_some {α β : Type} (a : α) (f : α → Option β) :
    (do let x ← some a; f x) = f a := rfl

/-- C2 (amended): on a list of length at least 3, a successful
`adjust_rgba` always returns a list of exactly 4 elements: the adjusted
first three channels followed by the original 4th element when present and
by `1` otherwise.  Elements beyond the 4th are dropped, and a length-3
input yields a length-4 output (the unamended claim that the length is
preserved fails, see the counterexample). -/
theorem C2_rgba_shape (cfg : Config) (xs : List JSON) (out : JSON)
    (hlen : 3 ≤ xs.length) (h : adjust_rgba (.arr xs) cfg = some out) :
    ∃ r g b rest t, xs = r :: g :: b :: rest ∧
      adjustTripletJ r g b cfg = some t ∧
      out = .arr [.num t.1, .num t.2.1, .num t.2.2, rest.headD (.num 1)] := by
  match xs, hlen with
  | r :: g :: b :: rest, _ =>
    simp only [adjust_rgba, ob_eq_some, Option.some.injEq] at h
    obtain ⟨t, ht, hout⟩ := h
    exact ⟨r, g, b, rest, t, rfl, ht, hout.symm⟩

theorem C2_rgba_shape_witness :
    (3 ≤ ([JSON.num 1, .num 0, .num 0, .num (1/2), .num 7] : List JSON).length ∧
      adjust_rgba (.arr [.num 1, .num 0, .num 0, .num (1/2), .num 7]) ⟨1, 0, 1, 0⟩ =
        some (.arr [.num 1, .num 0, .num 0, .num (1/2)])) ∧
    ∃ r g b rest t,
      ([JSON.num 1, .num 0, .num 0, .num (1/2), .num 7] : List JSON) = r :: g :: b :: rest ∧
      adjustTripletJ r g b ⟨1, 0, 1, 0⟩ = some t ∧
      (JSON.arr [.num 1, .num 0, .num 0, .num (1/2)]) =
        .arr [.num t.1, .num t.2.1, .num t.2.2, rest.headD (.num 1)] :=
  ⟨⟨by norm_num,
    by norm_num [adjust_rgba, adjustTripletJ, toNum, adjust_color_triplet,
      applyHue, satContrastBright, lerp, clamp01, min_def, max_def]⟩,
   C2_rgba_shape ⟨1, 0, 1, 0⟩ _ _ (by norm_num)
     (by norm_num [adjust_rgba, adjustTripletJ, toNum, adjust_color_triplet,
        applyHue, satContrastBright, lerp, clamp01, min_def, max_def])⟩

/-- C2 counterexample: a length-3 input produces a length-4 output (the
default alpha `1` is appended), so `adjust_rgba` does not preserve the
element count. -/
theorem C2_counterexample :
    adjust_rgba (.arr [.num 1, .num 0, .num 0]) ⟨1, 0, 1, 0⟩ =
      some (.arr [.num 1, .num 0, .num 0, .num 1]) ∧
    ([JSON.num 1, .num 0, .num 0, .num 1] : List JSON).length ≠
      ([JSON.num 1, .num 0, .num 0] : List JSON).length := by
  constructor
  · norm_num [adjust_rgba, adjustTripletJ, toNum, adjust_color_triplet,
      applyHue, satContrastBright, lerp, clamp01, min_def, max_def]
  · simp

/-! ## The gradient loop -/

/-- A list shorter than one full group is returned unchanged. -/
theorem adjust_gradient_arr_short (cfg : Config) (l : List JSON)
    (h : l.length < 4) : adjust_gradient_arr cfg l = some l := by
  match l, h with
  | [], _ => rfl
  | [a], _ => rfl
  | [a, b], _ => rfl
  | [a, b, c], _ => rfl

/-- The gradient loop preserves the array length. -/
theorem adjust_gradient_arr_length (cfg : Config) :
    ∀ (l out : List JSON), adjust_gradient_arr cfg l = some out →
      out.length = l.length
  | o :: r :: g :: b :: rest, out, h => by
      simp only [adjust_gradient_arr, ob_eq_some, Option.some.injEq] at h
      obtain ⟨t, ht, rest', hrest, h⟩ := h
      subst h
      simp [adjust_gradient_arr_length cfg rest rest' hrest]
  | [], out, h => by
      simp only [adjust_gradient_arr, Option.some.injEq] at h
      subst h; rfl
  | [a], out, h => by
      simp only [adjust_gradient_arr, Option.some.injEq] at h
      subst h; rfl
  | [a, b], out, h => by
      simp only [adjust_gradient_arr, Option.some.injEq] at h
      subst h; rfl
  | [a, b, c], out, h => by
      simp only [adjust_gradient_arr, Option.some.injEq] at h
      subst h; rfl

/-- Discarding one full group commutes with the gradient loop. -/
theorem adjust_gradient_arr_drop4 (cfg : Config) (l out : List JSON)
    (h : adjust_gradient_arr cfg l = some out) :
    adjust_gradient_arr cfg (l.drop 4) = some (out.drop 4) := by
  match l with
  | o :: r :: g :: b :: rest =>
      simp only [adjust_gradient_arr, ob_eq_some, Option.some.injEq] at h
      obtain ⟨t, ht, rest', hrest, h⟩ := h
      subst h
      simpa using hrest
  | [] =>
      simp only [adjust_gradient_arr, Option.some.injEq] at h
      subst h; rfl
  | [a] =>
      simp only [adjust_gradient_arr, Option.some.injEq] at h
      subst h; rfl
  | [a, b] =>
      simp only [adjust_gradient_arr, Option.some.injEq] at h
      subst h; rfl
  | [a, b, c] =>
      simp only [adjust_gradient_arr, Option.some.injEq] at h
      subst h; rfl

/-- Discarding `k` full groups commutes with the gradient loop. -/
theorem adjust_gradient_arr_drop4k (cfg : Config) (l out : List JSON)
    (h : adjust_gradient_arr cfg l = some out) (k : ℕ) :
    adjust_gradient_arr cfg (l.drop (4 * k)) = some (out.drop (4 * k)) := by
  induction k generalizing l out with
  | zero => simpa using h
  | succ n ih =>
      have h4 := adjust_gradient_arr_drop4 cfg l out h
      have h5 := ih _ _ h4
      rw [List.drop_drop, List.drop_drop] at h5
      have e : 4 + 4 * n = 4 * (n + 1) := by ring
      rw [e] at h5
      exact h5

/-- C6: a successful gradient adjustment preserves the array length;
every group of four starting at an offset `4*k` with at least 4 elements
remaining has its leading offset value preserved and its three channel
values replaced in place by their adjustment; and every position from
which fewer than 4 elements remain is left untouched. -/
theorem C6_gradient_groups (cfg : Config) (l out : List JSON)
    (h : adjust_gradient_arr cfg l = some out) :
    out.length = l.length ∧
    (∀ k o r g b rest, l.drop (4 * k) = o :: r :: g :: b :: rest →
       ∃ t rest', adjustTripletJ r g b cfg = some t ∧
         out.drop (4 * k) =
           o :: .num t.1 :: .num t.2.1 :: .num t.2.2 :: rest') ∧
    (∀ k, (l.drop (4 * k)).length < 4 → out.drop (4 * k) = l.drop (4 * k)) := by
  refine ⟨adjust_gradient_arr_length cfg l out h, ?_, ?_⟩
  · intro k o r g b rest hdrop
    have hk := adjust_gradient_arr_drop4k cfg l out h k
    rw [hdrop] at hk
    simp only [adjust_gradient_arr, ob_eq_some, Option.some.injEq] at hk
    obtain ⟨t, ht, rest', hrest, hout⟩ := hk
    exact ⟨t, rest', ht, hout.symm⟩
  · intro k hlen
    have hk := adjust_gradient_arr_drop4k cfg l out h k
    rw [adjust_gradient_arr_short cfg _ hlen, Option.some.injEq] at hk
    exact hk.symm

theorem C6_gradient_groups_witness :
    (adjust_gradient_arr ⟨1, 0, 0, 0⟩
        [.num 0, .num 1, .num 0, .num 0, .num 1, .num 0, .num 1, .num 0] =
      some [.num 0, .num (299/1000), .num (299/1000), .num (299/1000),
            .num 1, .num (587/1000), .num (587/1000), .num (587/1000)]) ∧
    (([JSON.num 0, .num (299/1000), .num (299/1000), .num (299/1000),
       .num 1, .num (587/1000), .num (587/1000), .num (587/1000)] : List JSON).length =
      ([JSON.num 0, .num 1, .num 0, .num 0, .num 1, .num 0, .num 1, .num 0] : List JSON).length ∧
     (∀ k o r g b rest,
        ([JSON.num 0, .num 1, .num 0, .num 0, .num 1, .num 0, .num 1,
          .num 0] : List JSON).drop (4 * k) = o :: r :: g :: b :: rest →
        ∃ t rest', adjustTripletJ r g b ⟨1, 0, 0, 0⟩ = some t ∧
          ([JSON.num 0, .num (299/1000), .num (299/1000), .num (299/1000),
            .num 1, .num (587/1000), .num (587/1000),
            .num (587/1000)] : List JSON).drop (4 * k) =
            o :: .num t.1 :: .num t.2.1 :: .num t.2.2 :: rest') ∧
     (∀ k, (([JSON.num 0, .num 1, .num 0, .num 0, .num 1, .num 0, .num 1,
          .num 0] : List JSON).drop (4 * k)).length < 4 →
        ([JSON.num 0, .num (299/1000), .num (299/1000), .num (299/1000),
          .num 1, .num (587/1000), .num (587/1000),
          .num (587/1000)] : List JSON).drop (4 * k) =
          ([JSON.num 0, .num 1, .num 0, .num 0, .num 1, .num 0, .num 1,
            .num 0] : List JSON).drop (4 * k))) :=
  ⟨by norm_num [adjust_gradient_arr, adjustTripletJ, toNum,
      adjust_color_triplet, applyHue, satContrastBright, lerp, clamp01,
      min_def, max_def],
   C6_gradient_groups ⟨1, 0, 0, 0⟩ _ _
     (by norm_num [adjust_gradient_arr, adjustTripletJ, toNum,
        adjust_color_triplet, applyHue, satContrastBright, lerp, clamp01,
        min_def, max_def])⟩

/-- C3 (amended): the loop `range(0, len(arr)-3, 4)` does not drop the
last complete group: a group starting at `i` is processed exactly when
`i+4 ≤ len(arr)`, so on a length-8 array both the group at index 0 and
the group at index 4 are processed; only a trailing fragment of fewer
than 4 elements is left untouched. -/
theorem C3_length8_both_groups (cfg : Config)
    (a0 a1 a2 a3 a4 a5 a6 a7 : JSON) (out : List JSON)
    (h : adjust_gradient_arr cfg [a0, a1, a2, a3, a4, a5, a6, a7] = some out) :
    ∃ t1 t2, adjustTripletJ a1 a2 a3 cfg = some t1 ∧
      adjustTripletJ a5 a6 a7 cfg = some t2 ∧
      out = [a0, .num t1.1, .num t1.2.1, .num t1.2.2,
             a4, .num t2.1, .num t2.2.1, .num t2.2.2] := by
  cases ht1 : adjustTripletJ a1 a2 a3 cfg with
  | none => simp [adjust_gradient_arr, ht1] at h
  | some t1 =>
      cases ht2 : adjustTripletJ a5 a6 a7 cfg with
      | none => simp [adjust_gradient_arr, ht1, ht2] at h
      | some t2 =>
          simp only [adjust_gradient_arr, ht1, ht2, ob_some,
            Option.some.injEq] at h
          obtain rfl := h
          exact ⟨t1, t2, rfl, rfl, rfl⟩

/-- C3 counterexample: on the length-8 gradient array
`[0, 1,0,0, 1, 0,1,0]` with saturation 0, the stop starting at index 4 is
adjusted (its channels become the luma of green), contradicting the claim
that only the group at index 0 is processed and the second stop is left
unadjusted. -/
theorem C3_counterexample :
    adjust_gradient_arr ⟨1, 0, 0, 0⟩
        [.num 0, .num 1, .num 0, .num 0, .num 1, .num 0, .num 1, .num 0] =
      some [.num 0, .num (299/1000), .num (299/1000), .num (299/1000),
            .num 1, .num (587/1000), .num (587/1000), .num (587/1000)] ∧
    ([JSON.num 0, .num (299/1000), .num (299/1000), .num (299/1000),
      .num 1, .num (587/1000), .num (587/1000),
      .num (587/1000)] : List JSON).getD 5 .null ≠
      ([JSON.num 0, .num 1, .num 0, .num 0, .num 1, .num 0, .num 1,
        .num 0] : List JSON).getD 5 .null := by
  constructor
  · norm_num [adjust_gradient_arr, adjustTripletJ, toNum,
      adjust_color_triplet, applyHue, satContrastBright, lerp, clamp01,
      min_def, max_def]
  · intro hc
    simp only [List.getD, List.get?, JSON.num.injEq] at hc
    norm_num at hc

theorem C3_length8_both_groups_witness :
    (adjust_gradient_arr ⟨1, 0, 0, 0⟩
        [.num 1, .num 0, .num 0, .num 1, .num 0, .num 1, .num 1, .num 0] =
      some [.num 1, .num (114/1000), .num (114/1000), .num (114/1000),
            .num 0, .num (886/1000), .num (886/1000), .num (886/1000)]) ∧
    ∃ t1 t2, adjustTripletJ (.num 0) (.num 0) (.num 1) ⟨1, 0, 0, 0⟩ = some t1 ∧
      adjustTripletJ (.num 1) (.num 1) (.num 0) ⟨1, 0, 0, 0⟩ = some t2 ∧
      ([JSON.num 1, .num (114/1000), .num (114/1000), .num (114/1000),
        .num 0, .num (886/1000), .num (886/1000),
        .num (886/1000)] : List JSON) =
        [.num 1, .num t1.1, .num t1.2.1, .num t1.2.2,
         .num 0, .num t2.1, .num t2.2.1, .num t2.2.2] :=
  ⟨by norm_num [adjust_gradient_arr, adjustTripletJ, toNum,
      adjust_color_triplet, applyHue, satContrastBright, lerp, clamp01,
      min_def, max_def],
   C3_length8_both_groups ⟨1, 0, 0, 0⟩ _ _ _ _ _ _ _ _ _
     (by norm_num [adjust_gradient_arr, adjustTripletJ, toNum,
        adjust_color_triplet, applyHue, satContrastBright, lerp, clamp01,
        min_def, max_def])⟩

/-! ## Hue rotation: fractional part lemmas and the HSV round trip -/

theorem pymod1_eq_fract (x : ℚ) : pymod1 x = Int.fract x := rfl

theorem pymod1_self {x : ℚ} (h0 : 0 ≤ x) (h1 : x < 1) : pymod1 x = x := by
  rw [pymod1_eq_fract]
  exact Int.fract_eq_self.mpr ⟨h0, h1⟩

theorem pymod1_add_one (x : ℚ) : pymod1 (x + 1) = pymod1 x := by
  rw [pymod1_eq_fract, pymod1_eq_fract]
  simpa using Int.fract_add_int x 1

theorem pymod1_sub_one (x : ℚ) : pymod1 (x - 1) = pymod1 x := by
  rw [pymod1_eq_fract, pymod1_eq_fract]
  simpa using Int.fract_sub_int x 1

theorem pymod1_idem (x : ℚ) : pymod1 (pymod1 x) = pymod1 x := by
  rw [pymod1_eq_fract, pymod1_eq_fract]
  exact Int.fract_fract x

/-- The hue produced by `rgb_to_hsv` is its own fractional part. -/
theorem rgb_to_hsv_fract (r g b : ℚ) (t : ℚ × ℚ × ℚ)
    (H : rgb_to_hsv r g b = some t) : pymod1 t.1 = t.1 := by
  unfold rgb_to_hsv at H
  by_cases heq : min r (min g b) = max r (max g b)
  · rw [if_pos heq, Option.some.injEq] at H
    rw [← H]
    simp [pymod1]
  · rw [if_neg heq] at H
    by_cases hz : max r (max g b) = 0
    · rw [if_pos hz] at H
      exact absurd H (by simp)
    · rw [if_neg hz, Option.some.injEq] at H
      rw [← H]
      exact pymod1_idem _

/-- With nonnegative channels, `rgb_to_hsv` never divides by zero. -/
theorem rgb_to_hsv_total (r g b : ℚ) (hr : 0 ≤ r) (hg : 0 ≤ g) (hb : 0 ≤ b) :
    ∃ t, rgb_to_hsv r g b = some t := by
  unfold rgb_to_hsv
  by_cases heq : min r (min g b) = max r (max g b)
  · rw [if_pos heq]
    exact ⟨_, rfl⟩
  · rw [if_neg heq]
    have hlt : min r (min g b) < max r (max g b) :=
      lt_of_le_of_ne (le_trans (min_le_left _ _) (le_max_left _ _)) heq
    have hmn : 0 ≤ min r (min g b) := le_min hr (le_min hg hb)
    have hz : max r (max g b) ≠ 0 := by
      intro h
      rw [h] at hlt
      exact absurd (lt_of_le_of_lt hmn hlt) (lt_irrefl 0)
    rw [if_neg hz]
    exact ⟨_, rfl⟩

/-- Evaluation of `hsv_to_rgb` once the integer sector `i` of `h*6` is
known. -/
theorem hsv_eval (i : ℤ) (h0 s v : ℚ) (hs : s ≠ 0) (hi0 : 0 ≤ i)
    (hi6 : i < 6) (hlo : (i : ℚ) ≤ h0 * 6) (hhi : h0 * 6 < i + 1) :
    hsv_to_rgb h0 s v =
      (let f := h0 * 6 - (i : ℚ)
       let p := v * (1 - s)
       let q := v * (1 - s * f)
       let t := v * (1 - s * (1 - f))
       if i = 0 then (v, t, p)
       else if i = 1 then (q, v, p)
       else if i = 2 then (p, v, t)
       else if i = 3 then (p, q, v)
       else if i = 4 then (t, p, v)
       else (v, p, q)) := by
  unfold hsv_to_rgb
  rw [if_neg hs]
  have h0nn : 0 ≤ h0 * 6 := le_trans (by exact_mod_cast hi0) hlo
  have hfl : ⌊h0 * 6⌋ = i := by
    rw [Int.floor_eq_iff]
    exact ⟨hlo, by push_cast; exact hhi⟩
  have htr : pytrunc (h0 * 6) = i := by rw [pytrunc, if_pos h0nn, hfl]
  rw [htr]
  simp only [Int.emod_eq_of_lt hi0 hi6]

/-- Channel algebra: the `p` component of `hsv_to_rgb`. -/
theorem comp_p (maxc D : ℚ) (hm : maxc ≠ 0) :
    maxc * (1 - D / maxc) = maxc - D := by
  field_simp

/-- Channel algebra: the `q` and `t` components of `hsv_to_rgb`. -/
theorem comp_qt (maxc D x : ℚ) (hm : maxc ≠ 0) :
    maxc * (1 - D / maxc * x) = maxc - D * x := by
  field_simp

/-- Key exactness fact for hue periodicity: on nonnegative channels the
HSV conversion round-trips exactly in rational arithmetic. -/
theorem hsv_rgb_roundtrip (r g b : ℚ) (hr : 0 ≤ r) (hg : 0 ≤ g) (hb : 0 ≤ b)
    (t : ℚ × ℚ × ℚ) (H : rgb_to_hsv r g b = some t) :
    hsv_to_rgb t.1 t.2.1 t.2.2 = (r, g, b) := by
  obtain ⟨h0, s0, v0⟩ := t
  simp only [rgb_to_hsv] at H
  by_cases heq : min r (min g b) = max r (max g b)
  · rw [if_pos heq, Option.some.injEq, Prod.mk.injEq, Prod.mk.injEq] at H
    obtain ⟨hh, hs, hv⟩ := H
    subst hh; subst hs; subst hv
    have hrm : r = max r (max g b) :=
      le_antisymm (le_max_left _ _) (by rw [← heq]; exact min_le_left _ _)
    have hgm : g = max r (max g b) :=
      le_antisymm (le_trans (le_max_left _ _) (le_max_right _ _))
        (by rw [← heq]; exact le_trans (min_le_right _ _) (min_le_left _ _))
    have hbm : b = max r (max g b) :=
      le_antisymm (le_trans (le_max_right _ _) (le_max_right _ _))
        (by rw [← heq]; exact le_trans (min_le_right _ _) (min_le_right _ _))
    show hsv_to_rgb 0 0 (max r (max g b)) = (r, g, b)
    unfold hsv_to_rgb
    rw [if_pos rfl, Prod.mk.injEq, Prod.mk.injEq]
    exact ⟨hrm.symm, hgm.symm, hbm.symm⟩
  · rw [if_neg heq] at H
    have hminle : min r (min g b) ≤ max r (max g b) :=
      le_trans (min_le_left _ _) (le_max_left _ _)
    have hlt : min r (min g b) < max r (max g b) := lt_of_le_of_ne hminle heq
    have hmn : 0 ≤ min r (min g b) := le_min hr (le_min hg hb)
    have hmaxpos : 0 < max r (max g b) := lt_of_le_of_lt hmn hlt
    rw [if_neg hmaxpos.ne'] at H
    rw [Option.some.injEq, Prod.mk.injEq, Prod.mk.injEq] at H
    obtain ⟨hh, hs, hv⟩ := H
    subst hh; subst hs; subst hv
    set maxc := max r (max g b) with hmaxc
    set minc := min r (min g b) with hminc
    set D := maxc - minc with hDdef
    have hDpos : 0 < D := sub_pos.mpr hlt
    have hrle : r ≤ maxc := le_max_left _ _
    have hgle : g ≤ maxc := le_trans (le_max_left _ _) (le_max_right _ _)
    have hble : b ≤ maxc := le_trans (le_max_right _ _) (le_max_right _ _)
    have hs0 : D / maxc ≠ 0 := div_ne_zero hDpos.ne' hmaxpos.ne'
    by_cases hR : r = maxc
    · rw [if_pos hR]
      have hmingb : min g b = minc := by
        rw [hminc]
        exact (min_eq_right (le_trans (le_trans (min_le_left g b) hgle)
          (le_of_eq hR.symm))).symm
      have hpre : (maxc - b) / D - (maxc - g) / D = (g - b) / D := by
        rw [div_sub_div_same]
        congr 1
        ring
      rw [hpre]
      rcases le_or_lt b g with hgb | hgb
      · -- minc = b, sector 0 or boundary 1
        have hminb : minc = b := by rw [← hmingb, min_eq_right hgb]
        have hDb : D = maxc - b := by rw [hDdef, hminb]
        have hnum0 : 0 ≤ g - b := sub_nonneg.mpr hgb
        have hnumD : g - b ≤ D := by rw [hDb]; linarith
        have hp0 : 0 ≤ (g - b) / D := div_nonneg hnum0 hDpos.le
        have hp1 : (g - b) / D ≤ 1 := (div_le_one hDpos).mpr hnumD
        have hcancel : D * ((g - b) / D) = g - b := by field_simp
        rcases lt_or_eq_of_le hp1 with hlt1 | heq1
        · have hmod : pymod1 ((g - b) / D / 6) = (g - b) / D / 6 :=
            pymod1_self (by positivity) (by linarith)
          rw [hmod]
          have hx6 : (g - b) / D / 6 * 6 = (g - b) / D := by
            field_simp
            ring
          rw [hsv_eval 0 _ _ _ hs0 (by norm_num) (by norm_num)
            (by rw [hx6]; exact_mod_cast hp0)
            (by rw [hx6]; push_cast; linarith)]
          norm_num
          refine ⟨hR.symm, ?_, ?_⟩
          · rw [comp_qt _ _ _ hmaxpos.ne']
            have hDF : D * (1 - (g - b) / D) = D - (g - b) := by
              rw [mul_sub, mul_one, hcancel]
            rw [hDF]
            linarith [hDb]
          · rw [comp_p _ _ hmaxpos.ne']
            linarith [hDb]
        · have hgmax : g = maxc := by
            have hgbD : g - b = D := (div_eq_one_iff_eq hDpos.ne').mp heq1
            rw [hDb] at hgbD
            linarith
          have hmod : pymod1 ((g - b) / D / 6) = (g - b) / D / 6 := by
            rw [heq1]
            exact pymod1_self (by norm_num) (by norm_num)
          rw [hmod]
          have hx6 : (g - b) / D / 6 * 6 = 1 := by
            rw [heq1]; norm_num
          rw [hsv_eval 1 _ _ _ hs0 (by norm_num) (by norm_num)
            (by rw [hx6]; norm_num) (by rw [hx6]; norm_num)]
          norm_num [hx6]
          refine ⟨hR.symm, hgmax.symm, ?_⟩
          rw [comp_p _ _ hmaxpos.ne']
          linarith [hDb]
      · -- g < b strictly, minc = g, sector 5
        have hming : minc = g := by rw [← hmingb, min_eq_left hgb.le]
        have hDg : D = maxc - g := by rw [hDdef, hming]
        have hnum0 : g - b < 0 := sub_neg.mpr hgb
        have hnumD : -D ≤ g - b := by rw [hDg]; linarith
        have hp0 : (g - b) / D < 0 := div_neg_of_neg_of_pos hnum0 hDpos
        have hp1 : -1 ≤ (g - b) / D := by
          rw [neg_le, ← neg_div]
          exact (div_le_one hDpos).mpr (by linarith)
        have hcancel : D * ((g - b) / D) = g - b := by field_simp
        have hmod : pymod1 ((g - b) / D / 6) = (g - b) / D / 6 + 1 := by
          have hfl : ⌊(g - b) / D / 6⌋ = -1 := by
            rw [Int.floor_eq_iff]
            constructor
            · push_cast
              linarith
            · push_cast
              linarith
          rw [pymod1, hfl]
          push_cast
          ring
        rw [hmod]
        have hx6 : ((g - b) / D / 6 + 1) * 6 = (g - b) / D + 6 := by
          field_simp
          ring
        rw [hsv_eval 5 _ _ _ hs0 (by norm_num) (by norm_num)
          (by rw [hx6]; push_cast; linarith)
          (by rw [hx6]; push_cast; linarith)]
        norm_num [hx6]
        refine ⟨hR.symm, ?_, ?_⟩
        · rw [comp_p _ _ hmaxpos.ne']
          linarith [hDg]
        · rw [comp_qt _ _ _ hmaxpos.ne']
          have hDF : D * ((g - b) / D + 6 - 5) = g - b + D := by
            field_simp
            ring
          rw [hDF]
          linarith [hDg]
    · rw [if_neg hR]
      have hrlt : r < maxc := lt_of_le_of_ne hrle hR
      by_cases hG : g = maxc
      · rw [if_pos hG]
        have hbg2 : b ≤ g := by rw [hG]; exact hble
        have hminc2 : minc = min r b := by
          rw [hminc, min_eq_right hbg2]
        have hpre : 2 + (maxc - r) / D - (maxc - b) / D = 2 + (b - r) / D := by
          field_simp
          ring
        rw [hpre]
        rcases le_or_lt b r with hbr | hrb
        · -- minc = b, sector 1 or boundary 2
          have hminb : minc = b := by rw [hminc2, min_eq_right hbr]
          have hDb : D = maxc - b := by rw [hDdef, hminb]
          have hnumlo : -D < b - r := by rw [hDb]; linarith
          have hnumhi : b - r ≤ 0 := sub_nonpos.mpr hbr
          have hxlo : -1 < (b - r) / D := by
            rw [neg_lt, ← neg_div]
            exact (div_lt_one hDpos).mpr (by linarith)
          have hxhi : (b - r) / D ≤ 0 := (div_le_iff hDpos).mpr (by linarith)
          have hcancel : D * ((b - r) / D) = b - r := by field_simp
          rcases lt_or_eq_of_le hxhi with hx | hx0
          · have hmod : pymod1 ((2 + (b - r) / D) / 6) = (2 + (b - r) / D) / 6 :=
              pymod1_self (by linarith) (by linarith)
            rw [hmod]
            have hx6 : (2 + (b - r) / D) / 6 * 6 = 2 + (b - r) / D := by
              field_simp
              ring
            rw [hsv_eval 1 _ _ _ hs0 (by norm_num) (by norm_num)
              (by rw [hx6]; push_cast; linarith)
              (by rw [hx6]; push_cast; linarith)]
            norm_num [hx6]
            refine ⟨?_, hG.symm, ?_⟩
            · rw [comp_qt _ _ _ hmaxpos.ne']
              have hDF : D * (2 + (b - r) / D - 1) = D + (b - r) := by
                field_simp
                ring
              rw [hDF]
              linarith [hDb]
            · rw [comp_p _ _ hmaxpos.ne']
              linarith [hDb]
          · -- boundary: b = r, sector 2 with f = 0
            have hbr_eq : b = r := by
              rcases div_eq_zero_iff.mp hx0 with h9 | h9
              · linarith
              · exact absurd h9 hDpos.ne'
            have hmod : pymod1 ((2 + (b - r) / D) / 6) = (2 + (b - r) / D) / 6 := by
              rw [hx0]
              exact pymod1_self (by norm_num) (by norm_num)
            rw [hmod]
            have hx6 : (2 + (b - r) / D) / 6 * 6 = 2 := by
              rw [hx0]; norm_num
            rw [hsv_eval 2 _ _ _ hs0 (by norm_num) (by norm_num)
              (by rw [hx6]; norm_num) (by rw [hx6]; norm_num)]
            norm_num [hx6]
            refine ⟨?_, hG.symm, ?_⟩
            · rw [comp_p _ _ hmaxpos.ne']
              linarith [hDb]
            · rw [comp_p _ _ hmaxpos.ne']
              linarith [hDb]
        · -- r < b: minc = r, sector 2 or boundary 3
          have hminr : minc = r := by rw [hminc2, min_eq_left hrb.le]
          have hDr : D = maxc - r := by rw [hDdef, hminr]
          have hxpos : 0 < (b - r) / D := div_pos (by linarith) hDpos
          have hxle : (b - r) / D ≤ 1 :=
            (div_le_one hDpos).mpr (by rw [hDr]; linarith)
          have hcancel : D * ((b - r) / D) = b - r := by field_simp
          rcases lt_or_eq_of_le hxle with hx | hx1
          · have hmod : pymod1 ((2 + (b - r) / D) / 6) = (2 + (b - r) / D) / 6 :=
              pymod1_self (by linarith) (by linarith)
            rw [hmod]
            have hx6 : (2 + (b - r) / D) / 6 * 6 = 2 + (b - r) / D := by
              field_simp
              ring
            rw [hsv_eval 2 _ _ _ hs0 (by norm_num) (by norm_num)
              (by rw [hx6]; push_cast; linarith)
              (by rw [hx6]; push_cast; linarith)]
            norm_num [hx6]
            refine ⟨?_, hG.symm, ?_⟩
            · rw [comp_p _ _ hmaxpos.ne']
              linarith [hDr]
            · rw [comp_qt _ _ _ hmaxpos.ne']
              have hDF : D * (1 - (b - r) / D) = D - (b - r) := by
                rw [mul_sub, mul_one, hcancel]
              rw [hDF]
              linarith [hDr]
          · -- boundary: b = maxc, sector 3 with f = 0
            have hbmax : b = maxc := by
              have h9 := (div_eq_one_iff_eq hDpos.ne').mp hx1
              rw [hDr] at h9
              linarith
            have hmod : pymod1 ((2 + (b - r) / D) / 6) = (2 + (b - r) / D) / 6 := by
              rw [hx1]
              exact pymod1_self (by norm_num) (by norm_num)
            rw [hmod]
            have hx6 : (2 + (b - r) / D) / 6 * 6 = 3 := by
              rw [hx1]; norm_num
            rw [hsv_eval 3 _ _ _ hs0 (by norm_num) (by norm_num)
              (by rw [hx6]; norm_num) (by rw [hx6]; norm_num)]
            norm_num [hx6]
            refine ⟨?_, hG.symm, hbmax.symm⟩
            rw [comp_p _ _ hmaxpos.ne']
            linarith [hDr]
      · -- b = maxc branch
        rw [if_neg hG]
        have hglt : g < maxc := lt_of_le_of_ne hgle hG
        have hB : b = maxc := by
          rcases max_choice r (max g b) with h | h
          · exact absurd (hmaxc.trans h).symm hR
          · rcases max_choice g b with h2 | h2
            · exact absurd (hmaxc.trans (h.trans h2)).symm hG
            · exact (hmaxc.trans (h.trans h2)).symm
        have hgb3 : g ≤ b := by rw [hB]; exact hgle
        have hminc3 : minc = min r g := by rw [hminc, min_eq_left hgb3]
        have hpre : 4 + (maxc - g) / D - (maxc - r) / D = 4 + (r - g) / D := by
          field_simp
          ring
        rw [hpre]
        rcases le_or_lt g r with hgr | hrg
        · -- minc = g, sector 4
          have hming2 : minc = g := by rw [hminc3, min_eq_right hgr]
          have hDg2 : D = maxc - g := by rw [hDdef, hming2]
          have hx0 : 0 ≤ (r - g) / D := div_nonneg (by linarith) hDpos.le
          have hx1 : (r - g) / D < 1 :=
            (div_lt_one hDpos).mpr (by rw [hDg2]; linarith)
          have hcancel : D * ((r - g) / D) = r - g := by field_simp
          have hmod : pymod1 ((4 + (r - g) / D) / 6) = (4 + (r - g) / D) / 6 :=
            pymod1_self (by linarith) (by linarith)
          rw [hmod]
          have hx6 : (4 + (r - g) / D) / 6 * 6 = 4 + (r - g) / D := by
            field_simp
            ring
          rw [hsv_eval 4 _ _ _ hs0 (by norm_num) (by norm_num)
            (by rw [hx6]; push_cast; linarith)
            (by rw [hx6]; push_cast; linarith)]
          norm_num [hx6]
          refine ⟨?_, ?_, hB.symm⟩
          · rw [comp_qt _ _ _ hmaxpos.ne']
            have hDF : D * (1 - (r - g) / D) = D - (r - g) := by
              rw [mul_sub, mul_one, hcancel]
            rw [hDF]
            linarith [hDg2]
          · rw [comp_p _ _ hmaxpos.ne']
            linarith [hDg2]
        · -- minc = r, sector 3
          have hminr2 : minc = r := by rw [hminc3, min_eq_left hrg.le]
          have hDr2 : D = maxc - r := by rw [hDdef, hminr2]
          have hxneg : (r - g) / D < 0 := div_neg_of_neg_of_pos (by linarith) hDpos
          have hxlo : -1 < (r - g) / D := by
            rw [neg_lt, ← neg_div]
            exact (div_lt_one hDpos).mpr (by rw [hDr2]; linarith)
          have hcancel : D * ((r - g) / D) = r - g := by field_simp
          have hmod : pymod1 ((4 + (r - g) / D) / 6) = (4 + (r - g) / D) / 6 :=
            pymod1_self (by linarith) (by linarith)
          rw [hmod]
          have hx6 : (4 + (r - g) / D) / 6 * 6 = 4 + (r - g) / D := by
            field_simp
            ring
          rw [hsv_eval 3 _ _ _ hs0 (by norm_num) (by norm_num)
            (by rw [hx6]; push_cast; linarith)
            (by rw [hx6]; push_cast; linarith)]
          norm_num [hx6]
          refine ⟨?_, ?_, hB.symm⟩
          · rw [comp_p _ _ hmaxpos.ne']
            linarith [hDr2]
          · rw [comp_qt _ _ _ hmaxpos.ne']
            have hDF : D * (4 + (r - g) / D - 3) = D + (r - g) := by
              field_simp
              ring
            rw [hDF]
            linarith [hDr2]

/-- The hue stage gives the same result for `hue_deg = h` and
`hue_deg = h + 360` on nonnegative channels, including the cases `h = 0`
(stage skipped, while `h = 360` runs the rotation) and `h = -360`. -/
theorem applyHue_period (c br s h r g b : ℚ)
    (hr : 0 ≤ r) (hg : 0 ≤ g) (hb : 0 ≤ b) :
    applyHue ⟨c, br, s, h⟩ r g b = applyHue ⟨c, br, s, h + 360⟩ r g b := by
  obtain ⟨t, ht⟩ := rgb_to_hsv_total r g b hr hg hb
  obtain ⟨h1, s1, v1⟩ := t
  have hfr : pymod1 h1 = h1 := rgb_to_hsv_fract r g b (h1, s1, v1) ht
  have hrt : hsv_to_rgb h1 s1 v1 = (r, g, b) :=
    hsv_rgb_roundtrip r g b hr hg hb (h1, s1, v1) ht
  by_cases h0 : h = 0
  · subst h0
    rw [applyHue, applyHue, if_pos rfl, if_neg (by norm_num), ht]
    have he : pymod1 (h1 + 1) = h1 := by rw [pymod1_add_one, hfr]
    simp [he, hrt]
  · by_cases h360 : h + 360 = 0
    · have hm : h = -360 := by linarith
      subst hm
      rw [applyHue, applyHue, if_neg (by norm_num), if_pos h360, ht]
      have he : pymod1 (h1 + -1) = h1 := by
        rw [show h1 + (-1 : ℚ) = h1 - 1 by ring, pymod1_sub_one, hfr]
      simp [he, hrt]
    · rw [applyHue, applyHue, if_neg h0, if_neg h360, ht]
      have he : pymod1 (h1 + (h + 360) / 360) = pymod1 (h1 + h / 360) := by
        rw [show h1 + (h + 360) / 360 = h1 + h / 360 + 1 by ring,
          pymod1_add_one]
      simp [he]

/-- C9 (amended): hue rotation is periodic with period 360 for every
triplet whose channels lie in `[0, 1]`: `adjust_color_triplet` with
`hue_deg = h` and with `hue_deg = h + 360` agree, including `h = 0`
(where the hue stage is skipped while `h = 360` takes the rotation
branch).  The unamended claim over all triplets fails: on an
out-of-range triplet the rotation branch can divide by zero, see the
counterexample. -/
theorem C9_hue_periodic (c br s h r g b : ℚ)
    (hr0 : 0 ≤ r) (hr1 : r ≤ 1) (hg0 : 0 ≤ g) (hg1 : g ≤ 1)
    (hb0 : 0 ≤ b) (hb1 : b ≤ 1) :
    adjust_color_triplet r g b ⟨c, br, s, h⟩ =
      adjust_color_triplet r g b ⟨c, br, s, h + 360⟩ := by
  unfold adjust_color_triplet
  rw [applyHue_period c br s h r g b hr0 hg0 hb0]
  rfl

/-- C9 counterexample: on the out-of-range triplet `(-1, 0, 0)`,
`hue_deg = 0` skips the hue stage and succeeds, while `hue_deg = 360`
enters the rotation branch and raises `ZeroDivisionError` inside
`colorsys.rgb_to_hsv` (the channel maximum is 0), so the two results
differ. -/
theorem C9_counterexample :
    adjust_color_triplet (-1) 0 0 ⟨1, 0, 1, 0⟩ = some (0, 0, 0) ∧
    adjust_color_triplet (-1) 0 0 ⟨1, 0, 1, 360⟩ = none := by
  constructor
  · norm_num [adjust_color_triplet, applyHue, satContrastBright, lerp,
      clamp01, min_def, max_def]
  · norm_num [adjust_color_triplet, applyHue, rgb_to_hsv, min_def, max_def]

theorem C9_hue_periodic_witness :
    ((0 ≤ (1:ℚ) ∧ (1:ℚ) ≤ 1) ∧ (0 ≤ (0:ℚ) ∧ (0:ℚ) ≤ 1) ∧
      (0 ≤ (1/2:ℚ) ∧ (1/2:ℚ) ≤ 1)) ∧
    adjust_color_triplet 1 0 (1/2) ⟨2, 1/4, 3, 90⟩ =
      adjust_color_triplet 1 0 (1/2) ⟨2, 1/4, 3, 90 + 360⟩ :=
  ⟨⟨⟨by norm_num, by norm_num⟩, ⟨by norm_num, by norm_num⟩,
    ⟨by norm_num, by norm_num⟩⟩,
   C9_hue_periodic 2 (1/4) 3 90 1 0 (1/2) (by norm_num) (by norm_num)
     (by norm_num) (by norm_num) (by norm_num) (by norm_num)⟩

/-! ## Structure preservation machinery -/

mutual
theorem KP_refl : ∀ j : JSON, KeysPreserved j j
  | .num q => .scalar _ _ rfl rfl
  | .str s => .scalar _ _ rfl rfl
  | .bool b => .scalar _ _ rfl rfl
  | .null => .scalar _ _ rfl rfl
  | .arr xs => .arr xs xs (KP_reflList xs)
  | .obj kvs => .obj kvs kvs rfl (KP_reflVals kvs)
termination_by j => sizeOf j
decreasing_by all_goals (simp_wf <;> omega)

theorem KP_reflList : ∀ xs : List JSON, List.Forall₂ KeysPreserved xs xs
  | [] => .nil
  | x :: rest => .cons (KP_refl x) (KP_reflList rest)
termination_by xs => sizeOf xs
decreasing_by all_goals (simp_wf <;> omega)

theorem KP_reflVals : ∀ kvs : List (String × JSON),
    List.Forall₂ KeysPreserved (kvs.map Prod.snd) (kvs.map Prod.snd)
  | [] => .nil
  | (k, v) :: rest => .cons (KP_refl v) (KP_reflVals rest)
termination_by kvs => sizeOf kvs
decreasing_by all_goals (simp_wf <;> omega)
end

theorem KP_scalar_of (y z : JSON) (hy : isScalar y = true)
    (h : KeysPreserved y z) : isScalar z = true := by
  cases h with
  | scalar a b ha hb => exact hb
  | arr xs ys h => simp [isScalar] at hy
  | arr_rgba xs ys hlen hsc => simp [isScalar] at hy
  | obj kvs kvs' hkeys hvals => simp [isScalar] at hy

theorem forall2_scalar_transfer (ys zs : List JSON)
    (h : List.Forall₂ KeysPreserved ys zs)
    (hs : ∀ y ∈ ys, isScalar y = true) : ∀ z ∈ zs, isScalar z = true := by
  induction h with
  | nil => intro z hz; exact absurd hz (List.not_mem_nil z)
  | cons hyz htail ih =>
      intro z hz
      rcases List.mem_cons.mp hz with rfl | hz2
      · exact KP_scalar_of _ _ (hs _ (List.mem_cons_self _ _)) hyz
      · exact ih (fun y hy => hs y (List.mem_cons_of_mem _ hy)) z hz2

theorem sizeOf_map_snd_le : ∀ kvs : List (String × JSON),
    sizeOf (kvs.map Prod.snd) ≤ sizeOf kvs
  | [] => by simp
  | (k, v) :: rest => by
      have ih := sizeOf_map_snd_le rest
      simp only [List.map_cons, List.cons.sizeOf_spec, Prod.mk.sizeOf_spec]
      omega

mutual
theorem KP_trans : ∀ (a b c : JSON), KeysPreserved a b →
    KeysPreserved b c → KeysPreserved a c
  | .num q, b, c, h1, h2 => by
      cases h1 with
      | scalar _ _ ha hb =>
          cases h2 with
          | scalar _ _ _ hc => exact .scalar _ _ ha hc
          | arr ys zs h => simp [isScalar] at hb
          | arr_rgba ys zs hlen hsc => simp [isScalar] at hb
          | obj kvs kvs2 hkeys hvals => simp [isScalar] at hb
  | .str s, b, c, h1, h2 => by
      cases h1 with
      | scalar _ _ ha hb =>
          cases h2 with
          | scalar _ _ _ hc => exact .scalar _ _ ha hc
          | arr ys zs h => simp [isScalar] at hb
          | arr_rgba ys zs hlen hsc => simp [isScalar] at hb
          | obj kvs kvs2 hkeys hvals => simp [isScalar] at hb
  | .bool v, b, c, h1, h2 => by
      cases h1 with
      | scalar _ _ ha hb =>
          cases h2 with
          | scalar _ _ _ hc => exact .scalar _ _ ha hc
          | arr ys zs h => simp [isScalar] at hb
          | arr_rgba ys zs hlen hsc => simp [isScalar] at hb
          | obj kvs kvs2 hkeys hvals => simp [isScalar] at hb
  | .null, b, c, h1, h2 => by
      cases h1 with
      | scalar _ _ ha hb =>
          cases h2 with
          | scalar _ _ _ hc => exact .scalar _ _ ha hc
          | arr ys zs h => simp [isScalar] at hb
          | arr_rgba ys zs hlen hsc => simp [isScalar] at hb
          | obj kvs kvs2 hkeys hvals => simp [isScalar] at hb
  | .arr xs, b, c, h1, h2 => by
      cases h1 with
      | scalar _ _ ha hb => simp [isScalar] at ha
      | arr _ ys h =>
          cases h2 with
          | scalar _ _ hb hc => simp [isScalar] at hb
          | arr _ zs h2' => exact .arr _ _ (KP_transList xs ys zs h h2')
          | arr_rgba _ zs hlen hsc => exact .arr_rgba _ _ hlen hsc
      | arr_rgba _ ys hlen hsc =>
          cases h2 with
          | scalar _ _ hb hc => simp [isScalar] at hb
          | arr _ zs h2' =>
              refine .arr_rgba _ _ ?_ ?_
              · rw [← h2'.length_eq]
                exact hlen
              · intro z hz
                exact forall2_scalar_transfer _ _ (List.forall₂_take 3 h2')
                  (fun y hy => hsc y hy) z hz
          | arr_rgba _ zs hlen2 hsc2 => exact .arr_rgba _ _ hlen2 hsc2
  | .obj kvs, b, c, h1, h2 => by
      cases h1 with
      | scalar _ _ ha hb => simp [isScalar] at ha
      | obj _ kvs1 hkeys hvals =>
          cases h2 with
          | scalar _ _ hb _ => simp [isScalar] at hb
          | obj _ kvs2 hkeys2 hvals2 =>
              exact .obj _ _ (hkeys.trans hkeys2)
                (KP_transList _ _ _ hvals hvals2)
termination_by a => sizeOf a
decreasing_by
  all_goals simp_wf
  all_goals first
    | omega
    | (have hmap := sizeOf_map_snd_le kvs
       omega)

theorem KP_transList : ∀ (xs ys zs : List JSON),
    List.Forall₂ KeysPreserved xs ys → List.Forall₂ KeysPreserved ys zs →
    List.Forall₂ KeysPreserved xs zs
  | [], ys, zs, h1, h2 => by
      cases h1
      cases h2
      exact .nil
  | x :: rest, ys, zs, h1, h2 => by
      cases h1 with
      | cons hxy h1' =>
          cases h2 with
          | cons hyz h2' =>
              exact .cons (KP_trans _ _ _ hxy hyz)
                (KP_transList _ _ _ h1' h2')
termination_by xs => sizeOf xs
decreasing_by all_goals (simp_wf <;> omega)
end

theorem toNum_scalar (j : JSON) (q : ℚ) (h : toNum j = some q) :
    isScalar j = true := by
  cases j <;> simp [toNum, isScalar] at h ⊢

theorem adjustTripletJ_scalars (r g b : JSON) (cfg : Config) (t : ℚ × ℚ × ℚ)
    (h : adjustTripletJ r g b cfg = some t) :
    isScalar r = true ∧ isScalar g = true ∧ isScalar b = true := by
  simp only [adjustTripletJ, ob_eq_some] at h
  obtain ⟨qr, hqr, qg, hqg, qb, hqb, -⟩ := h
  exact ⟨toNum_scalar r qr hqr, toNum_scalar g qg hqg, toNum_scalar b qb hqb⟩

/-- A successful `adjust_rgba` is covered by the structure-preservation
relation. -/
theorem adjust_rgba_KP (v : JSON) (cfg : Config) (v' : JSON)
    (h : adjust_rgba v cfg = some v') : KeysPreserved v v' := by
  match v with
  | .arr (r :: g :: b :: rest) =>
      simp only [adjust_rgba, ob_eq_some, Option.some.injEq] at h
      obtain ⟨t, ht, hout⟩ := h
      obtain ⟨hsr, hsg, hsb⟩ := adjustTripletJ_scalars r g b cfg t ht
      subst hout
      refine .arr_rgba _ _ rfl ?_
      intro y hy
      simp only [List.take, List.mem_cons, List.not_mem_nil, or_false] at hy
      rcases hy with rfl | rfl | rfl <;> rfl
  | .arr [] => simp only [adjust_rgba, Option.some.injEq] at h; subst h; exact KP_refl _
  | .arr [a] => simp only [adjust_rgba, Option.some.injEq] at h; subst h; exact KP_refl _
  | .arr [a, b] => simp only [adjust_rgba, Option.some.injEq] at h; subst h; exact KP_refl _
  | .num q => simp only [adjust_rgba, Option.some.injEq] at h; subst h; exact KP_refl _
  | .str s => simp only [adjust_rgba, Option.some.injEq] at h; subst h; exact KP_refl _
  | .bool q => simp only [adjust_rgba, Option.some.injEq] at h; subst h; exact KP_refl _
  | .null => simp only [adjust_rgba, Option.some.injEq] at h; subst h; exact KP_refl _
  | .obj m => simp only [adjust_rgba, Option.some.injEq] at h; subst h; exact KP_refl _

/-- Overwriting an existing key preserves the key list. -/
theorem setKey_keys : ∀ (kvs : List (String × JSON)) (s : String)
    (v w : JSON), lookupKey kvs s = some v →
    (setKey kvs s w).map Prod.fst = kvs.map Prod.fst
  | [], s, v, w, h => by simp [lookupKey] at h
  | (k, x) :: rest, s, v, w, h => by
      by_cases hk : k = s
      · subst hk
        simp [setKey, lookupKey]
      · rw [lookupKey, if_neg hk] at h
        simp only [setKey, if_neg hk, List.map_cons]
        rw [setKey_keys rest s v w h]

/-- Overwriting an existing key with a related value keeps all values
related. -/
theorem setKey_vals_KP : ∀ (kvs : List (String × JSON)) (s : String)
    (v w : JSON), lookupKey kvs s = some v → KeysPreserved v w →
    List.Forall₂ KeysPreserved (kvs.map Prod.snd)
      ((setKey kvs s w).map Prod.snd)
  | [], s, v, w, h, _ => by simp [lookupKey] at h
  | (k, x) :: rest, s, v, w, h, hkp => by
      by_cases hk : k = s
      · subst hk
        rw [lookupKey, if_pos rfl, Option.some.injEq] at h
        subst h
        simp only [setKey, if_pos rfl, List.map_cons]
        exact .cons hkp (KP_reflVals rest)
      · rw [lookupKey, if_neg hk] at h
        simp only [setKey, if_neg hk, List.map_cons]
        exact .cons (KP_refl x) (setKey_vals_KP rest s v w h hkp)

/-- A successful gradient pass is pointwise covered by the relation. -/
theorem adjust_gradient_arr_KP (cfg : Config) : ∀ (l out : List JSON),
    adjust_gradient_arr cfg l = some out →
    List.Forall₂ KeysPreserved l out
  | o :: r :: g :: b :: rest, out, h => by
      simp only [adjust_gradient_arr, ob_eq_some, Option.some.injEq] at h
      obtain ⟨t, ht, rest', hrest, hout⟩ := h
      obtain ⟨hsr, hsg, hsb⟩ := adjustTripletJ_scalars r g b cfg t ht
      subst hout
      exact .cons (KP_refl o) (.cons (.scalar _ _ hsr rfl)
        (.cons (.scalar _ _ hsg rfl) (.cons (.scalar _ _ hsb rfl)
          (adjust_gradient_arr_KP cfg rest rest' hrest))))
  | [], out, h => by
      simp only [adjust_gradient_arr, Option.some.injEq] at h
      subst h; exact .nil
  | [a], out, h => by
      simp only [adjust_gradient_arr, Option.some.injEq] at h
      subst h; exact KP_reflList _
  | [a, b], out, h => by
      simp only [adjust_gradient_arr, Option.some.injEq] at h
      subst h; exact KP_reflList _
  | [a, b, c], out, h => by
      simp only [adjust_gradient_arr, Option.some.injEq] at h
      subst h; exact KP_reflList _

/-- One keyframe field update is covered by the relation. -/
theorem setField_KP (f : JSON) (s : String) (cfg : Config) (f' : JSON)
    (h : setField f s cfg = some f') : KeysPreserved f f' := by
  match f with
  | .obj kvs =>
      simp only [setField] at h
      cases hk : lookupKey kvs s with
      | none =>
          rw [hk] at h
          simp only [Option.some.injEq] at h
          subst h
          exact KP_refl _
      | some v =>
          rw [hk] at h
          simp only [ob_eq_some, Option.some.injEq] at h
          obtain ⟨v', hv', hout⟩ := h
          subst hout
          exact .obj _ _ (setKey_keys kvs s v v' hk).symm
            (setKey_vals_KP kvs s v v' hk (adjust_rgba_KP v cfg v' hv'))
  | .str t =>
      simp only [setField] at h
      by_cases hc : strContainsSub t s
      · rw [if_pos hc] at h; exact absurd h (by simp)
      · rw [if_neg hc] at h
        simp only [Option.some.injEq] at h
        subst h; exact KP_refl _
  | .arr xs =>
      simp only [setField] at h
      by_cases hc : xs.any fun j => match j with | .str u => u == s | _ => false
      · rw [if_pos hc] at h; exact absurd h (by simp)
      · rw [if_neg hc] at h
        simp only [Option.some.injEq] at h
        subst h; exact KP_refl _
  | .num q => exact absurd h (by simp [setField])
  | .bool q => exact absurd h (by simp [setField])
  | .null => exact absurd h (by simp [setField])

theorem processKeyframe_KP (f : JSON) (cfg : Config) (f' : JSON)
    (h : processKeyframe f cfg = some f') : KeysPreserved f f' := by
  simp only [processKeyframe, ob_eq_some] at h
  obtain ⟨f1, h1, h2⟩ := h
  exact KP_trans _ _ _ (setField_KP f "s" cfg f1 h1)
    (setField_KP f1 "e" cfg f' h2)

theorem mapKeyframes_KP (cfg : Config) : ∀ (ks ks' : List JSON),
    mapKeyframes ks cfg = some ks' → List.Forall₂ KeysPreserved ks ks'
  | [], ks', h => by
      simp only [mapKeyframes, Option.some.injEq] at h
      subst h; exact .nil
  | f :: rest, ks', h => by
      simp only [mapKeyframes, ob_eq_some, Option.some.injEq] at h
      obtain ⟨f', hf', rest', hrest, hout⟩ := h
      subst hout
      exact .cons (processKeyframe_KP f cfg f' hf')
        (mapKeyframes_KP cfg rest rest' hrest)

/-- The direct-color branch is covered by the relation. -/
theorem processDirectColor_KP (m : List (String × JSON)) (cfg : Config)
    (v' : JSON) (h : processDirectColor m cfg = some v') :
    KeysPreserved (.obj m) v' := by
  cases hk : lookupKey m "k" with
  | none =>
      simp only [processDirectColor, hk, Option.some.injEq] at h
      subst h; exact KP_refl _
  | some kv =>
      match kv with
      | .arr ks =>
          simp only [processDirectColor, hk] at h
          by_cases h3 : 3 ≤ ks.length
          · rw [if_pos h3] at h
            simp only [ob_eq_some, Option.some.injEq] at h
            obtain ⟨k', hk', hout⟩ := h
            subst hout
            exact .obj _ _ (setKey_keys m "k" (.arr ks) k' hk).symm
              (setKey_vals_KP m "k" (.arr ks) k' hk
                (adjust_rgba_KP (.arr ks) cfg k' hk'))
          · rw [if_neg h3] at h
            by_cases hh : headIsObj ks
            · rw [if_pos hh] at h
              simp only [ob_eq_some, Option.some.injEq] at h
              obtain ⟨ks', hks', hout⟩ := h
              subst hout
              exact .obj _ _ (setKey_keys m "k" (.arr ks) (.arr ks') hk).symm
                (setKey_vals_KP m "k" (.arr ks) (.arr ks') hk
                  (.arr _ _ (mapKeyframes_KP cfg ks ks' hks')))
            · rw [if_neg hh] at h
              simp only [Option.some.injEq] at h
              subst h; exact KP_refl _
      | .num q =>
          simp only [processDirectColor, hk, Option.some.injEq] at h
          subst h; exact KP_refl _
      | .str s =>
          simp only [processDirectColor, hk, Option.some.injEq] at h
          subst h; exact KP_refl _
      | .bool q =>
          simp only [processDirectColor, hk, Option.some.injEq] at h
          subst h; exact KP_refl _
      | .null =>
          simp only [processDirectColor, hk, Option.some.injEq] at h
          subst h; exact KP_refl _
      | .obj m2 =>
          simp only [processDirectColor, hk, Option.some.injEq] at h
          subst h; exact KP_refl _

/-- The gradient branch is covered by the relation. -/
theorem processGradient_KP (m : List (String × JSON)) (cfg : Config)
    (v' : JSON) (h : processGradient m cfg = some v') :
    KeysPreserved (.obj m) v' := by
  cases hk : lookupKey m "k" with
  | none =>
      simp only [processGradient, hk, Option.some.injEq] at h
      subst h; exact KP_refl _
  | some kv =>
      match kv with
      | .obj m2 =>
          cases hk2 : lookupKey m2 "k" with
          | none =>
              simp only [processGradient, hk, hk2, Option.some.injEq] at h
              subst h; exact KP_refl _
          | some kv2 =>
              match kv2 with
              | .arr arr =>
                  simp only [processGradient, hk, hk2, ob_eq_some,
                    Option.some.injEq] at h
                  obtain ⟨arr', harr, hout⟩ := h
                  subst hout
                  refine .obj _ _ (setKey_keys m "k" (.obj m2) _ hk).symm
                    (setKey_vals_KP m "k" (.obj m2) _ hk ?_)
                  refine .obj _ _ (setKey_keys m2 "k" (.arr arr) _ hk2).symm
                    (setKey_vals_KP m2 "k" (.arr arr) _ hk2 ?_)
                  exact .arr _ _ (adjust_gradient_arr_KP cfg arr arr' harr)
              | .num q =>
                  simp only [processGradient, hk, hk2, Option.some.injEq] at h
                  subst h; exact KP_refl _
              | .str s =>
                  simp only [processGradient, hk, hk2, Option.some.injEq] at h
                  subst h; exact KP_refl _
              | .bool q =>
                  simp only [processGradient, hk, hk2, Option.some.injEq] at h
                  subst h; exact KP_refl _
              | .null =>
                  simp only [processGradient, hk, hk2, Option.some.injEq] at h
                  subst h; exact KP_refl _
              | .obj m3 =>
                  simp only [processGradient, hk, hk2, Option.some.injEq] at h
                  subst h; exact KP_refl _
      | .arr ks =>
          simp only [processGradient, hk, Option.some.injEq] at h
          subst h; exact KP_refl _
      | .num q =>
          simp only [processGradient, hk, Option.some.injEq] at h
          subst h; exact KP_refl _
      | .str s =>
          simp only [processGradient, hk, Option.some.injEq] at h
          subst h; exact KP_refl _
      | .bool q =>
          simp only [processGradient, hk, Option.some.injEq] at h
          subst h; exact KP_refl _
      | .null =>
          simp only [processGradient, hk, Option.some.injEq] at h
          subst h; exact KP_refl _

mutual
/-- A successful `recurse` is covered by the structure-preservation
relation. -/
theorem recurse_KP : ∀ (j : JSON) (cfg : Config) (j' : JSON),
    recurse j cfg = some j' → KeysPreserved j j'
  | .obj kvs, cfg, j', h => by
      simp only [recurse, ob_eq_some, Option.some.injEq] at h
      obtain ⟨kvs', hkvs, hout⟩ := h
      subst hout
      obtain ⟨hkeys, hvals⟩ := recurseEntries_KP kvs cfg kvs' hkvs
      exact .obj _ _ hkeys hvals
  | .arr xs, cfg, j', h => by
      simp only [recurse, ob_eq_some, Option.some.injEq] at h
      obtain ⟨xs', hxs, hout⟩ := h
      subst hout
      exact .arr _ _ (recurseElems_KP xs cfg xs' hxs)
  | .num q, cfg, j', h => by
      simp only [recurse, Option.some.injEq] at h
      subst h; exact KP_refl _
  | .str s, cfg, j', h => by
      simp only [recurse, Option.some.injEq] at h
      subst h; exact KP_refl _
  | .bool q, cfg, j', h => by
      simp only [recurse, Option.some.injEq] at h
      subst h; exact KP_refl _
  | .null, cfg, j', h => by
      simp only [recurse, Option.some.injEq] at h
      subst h; exact KP_refl _
termination_by j => sizeOf j
decreasing_by all_goals (simp_wf <;> omega)

theorem recurseEntries_KP : ∀ (kvs : List (String × JSON)) (cfg : Config)
    (kvs' : List (String × JSON)), recurseEntries kvs cfg = some kvs' →
    kvs.map Prod.fst = kvs'.map Prod.fst ∧
    List.Forall₂ KeysPreserved (kvs.map Prod.snd) (kvs'.map Prod.snd)
  | [], cfg, kvs', h => by
      simp only [recurseEntries, Option.some.injEq] at h
      subst h
      exact ⟨rfl, .nil⟩
  | (key, val) :: rest, cfg, kvs', h => by
      rw [recurseEntries_cons] at h
      simp only [ob_eq_some, Option.some.injEq] at h
      obtain ⟨val', hval, rest', hrest, hout⟩ := h
      subst hout
      obtain ⟨hkeys, hvals⟩ := recurseEntries_KP rest cfg rest' hrest
      refine ⟨by simp [hkeys], .cons ?_ hvals⟩
      exact processEntry_KP key val cfg val' hval
termination_by kvs => sizeOf kvs
decreasing_by all_goals (simp_wf <;> omega)

theorem recurseElems_KP : ∀ (xs : List JSON) (cfg : Config)
    (xs' : List JSON), recurseElems xs cfg = some xs' →
    List.Forall₂ KeysPreserved xs xs'
  | [], cfg, xs', h => by
      simp only [recurseElems, Option.some.injEq] at h
      subst h; exact .nil
  | x :: rest, cfg, xs', h => by
      simp only [recurseElems, ob_eq_some, Option.some.injEq] at h
      obtain ⟨x', hx, rest', hrest, hout⟩ := h
      subst hout
      exact .cons (recurse_KP x cfg x' hx)
        (recurseElems_KP rest cfg rest' hrest)
termination_by xs => sizeOf xs
decreasing_by all_goals (simp_wf <;> omega)

theorem processEntry_KP : ∀ (key : String) (val : JSON) (cfg : Config)
    (val' : JSON), processEntry key val cfg = some val' →
    KeysPreserved val val'
  | key, .obj m, cfg, val', h => by
      simp only [processEntry] at h
      by_cases hck : isColorKey key
      · rw [if_pos hck] at h
        exact processDirectColor_KP m cfg val' h
      · rw [if_neg hck] at h
        by_cases hg : key == "g"
        · rw [if_pos hg] at h
          exact processGradient_KP m cfg val' h
        · rw [if_neg hg] at h
          exact recurse_KP (.obj m) cfg val' h
  | key, .arr xs, cfg, val', h => by
      simp only [processEntry] at h
      exact recurse_KP (.arr xs) cfg val' h
  | key, .num q, cfg, val', h => by
      simp only [processEntry] at h
      exact recurse_KP (.num q) cfg val' h
  | key, .str s, cfg, val', h => by
      simp only [processEntry] at h
      exact recurse_KP (.str s) cfg val' h
  | key, .bool q, cfg, val', h => by
      simp only [processEntry] at h
      exact recurse_KP (.bool q) cfg val' h
  | key, .null, cfg, val', h => by
      simp only [processEntry] at h
      exact recurse_KP .null cfg val' h
termination_by key val => sizeOf val + 1
decreasing_by all_goals (simp_wf <;> omega)
end

mutual
/-- On a tree with no color-key entries, `recurse` is the identity. -/
theorem recurse_nck : ∀ (j : JSON) (cfg : Config),
    noColorKeys j = true → recurse j cfg = some j
  | .obj kvs, cfg, h => by
      simp only [noColorKeys] at h
      simp only [recurse, recurseEntries_nck kvs cfg h]
      rfl
  | .arr xs, cfg, h => by
      simp only [noColorKeys] at h
      simp only [recurse, recurseElems_nck xs cfg h]
      rfl
  | .num q, cfg, h => by simp only [recurse]
  | .str s, cfg, h => by simp only [recurse]
  | .bool q, cfg, h => by simp only [recurse]
  | .null, cfg, h => by simp only [recurse]
termination_by j => sizeOf j
decreasing_by all_goals (simp_wf <;> omega)

theorem recurseEntries_nck : ∀ (kvs : List (String × JSON)) (cfg : Config),
    nckEntries kvs = true → recurseEntries kvs cfg = some kvs
  | [], cfg, h => by simp only [recurseEntries]
  | (key, val) :: rest, cfg, h => by
      simp only [nckEntries, Bool.and_eq_true, Bool.not_eq_true'] at h
      obtain ⟨⟨hcond, hval⟩, hrest⟩ := h
      have hval' : recurse val cfg = some val := recurse_nck val cfg hval
      have hentry : processEntry key val cfg = some val := by
        match val, hcond, hval' with
        | .obj m, hcond, hval' =>
            simp only [isObj, Bool.and_eq_false_iff] at hcond
            rcases hcond with hcond | hcond
            · simp only [Bool.or_eq_false_iff] at hcond
              simp only [processEntry, hcond.1, Bool.false_eq_true,
                if_false, hcond.2]
              exact hval'
            · exact absurd hcond (by simp)
        | .num q, _, hval' => simp only [processEntry]; exact hval'
        | .str s, _, hval' => simp only [processEntry]; exact hval'
        | .bool q, _, hval' => simp only [processEntry]; exact hval'
        | .null, _, hval' => simp only [processEntry]; exact hval'
        | .arr xs, _, hval' => simp only [processEntry]; exact hval'
      rw [recurseEntries_cons]
      simp only [hentry, recurseEntries_nck rest cfg hrest]
      rfl
termination_by kvs => sizeOf kvs
decreasing_by all_goals (simp_wf <;> omega)

theorem recurseElems_nck : ∀ (xs : List JSON) (cfg : Config),
    nckElems xs = true → recurseElems xs cfg = some xs
  | [], cfg, h => by simp only [recurseElems]
  | x :: rest, cfg, h => by
      simp only [nckElems, Bool.and_eq_true] at h
      simp only [recurseElems, recurse_nck x cfg h.1,
        recurseElems_nck rest cfg h.2]
      rfl
termination_by xs => sizeOf xs
decreasing_by all_goals (simp_wf <;> omega)
end

/-- C5 counterexample: the locator changes the element count of a
sequence: a static color `{"c": {"k": [1, 0, 0]}}` has its length-3 `"k"`
list replaced by a length-4 list. -/
theorem C5_counterexample :
    recurse (.obj [("c", .obj [("k", .arr [.num 1, .num 0, .num 0])])])
        ⟨1, 0, 1, 0⟩ =
      some (.obj [("c", .obj
        [("k", .arr [.num 1, .num 0, .num 0, .num 1])])]) ∧
    ([JSON.num 1, .num 0, .num 0, .num 1] : List JSON).length ≠
      ([JSON.num 1, .num 0, .num 0] : List JSON).length := by
  constructor
  · norm_num [recurse, recurseEntries, processDirectColor, lookupKey,
      setKey, adjust_rgba, adjustTripletJ, toNum, adjust_color_triplet,
      applyHue, satContrastBright, lerp, clamp01, isColorKey, min_def,
      max_def]
  · simp

theorem recurse_num (q : ℚ) (cfg : Config) :
    recurse (.num q) cfg = some (.num q) := by
  simp only [recurse]

theorem recurse_str (s : String) (cfg : Config) :
    recurse (.str s) cfg = some (.str s) := by
  simp only [recurse]

/-- Overwriting the existing key `s` changes at most the first entry
named `s` and no entry's key. -/
theorem setKey_pointwise : ∀ (m : List (String × JSON)) (s : String)
    (w v : JSON), lookupKey m s = some v →
    List.Forall₂ (fun a b : String × JSON =>
      b.1 = a.1 ∧ (a.1 ≠ s → b = a)) m (setKey m s w)
  | [], s, w, v, h => by simp [lookupKey] at h
  | (k, x) :: rest, s, w, v, h => by
      by_cases hk : k = s
      · subst hk
        simp only [setKey, if_pos rfl]
        refine .cons ⟨rfl, fun hne => absurd rfl hne⟩ ?_
        exact List.forall₂_same.mpr fun p _ => ⟨rfl, fun _ => rfl⟩
      · rw [lookupKey, if_neg hk] at h
        simp only [setKey, if_neg hk]
        exact .cons ⟨rfl, fun _ => rfl⟩ (setKey_pointwise rest s w v h)

/-- Entry relation for C10: keys are preserved; an entry whose key is a
direct-color key or `"g"` and whose value is a mapping gets back a
mapping that differs from it at most at the key `"k"`; such an entry with
a non-mapping value is processed by the generic recursion. -/
def entrySpecC10 (cfg : Config) (p q : String × JSON) : Prop :=
  q.1 = p.1 ∧
  (∀ m, (isColorKey p.1 || p.1 == "g") = true → p.2 = .obj m →
    ∃ m', q.2 = .obj m' ∧
      List.Forall₂ (fun a b : String × JSON =>
        b.1 = a.1 ∧ (a.1 ≠ "k" → b = a)) m m') ∧
  ((isColorKey p.1 || p.1 == "g") = true → isObj p.2 = false →
    recurse p.2 cfg = some q.2)

/-- The direct-color branch touches at most the `"k"` entry. -/
theorem processDirectColor_shallow (m : List (String × JSON)) (cfg : Config)
    (v' : JSON) (h : processDirectColor m cfg = some v') :
    ∃ m', v' = .obj m' ∧
      List.Forall₂ (fun a b : String × JSON =>
        b.1 = a.1 ∧ (a.1 ≠ "k" → b = a)) m m' := by
  cases hk : lookupKey m "k" with
  | none =>
      simp only [processDirectColor, hk, Option.some.injEq] at h
      exact ⟨m, h.symm, List.forall₂_same.mpr fun p _ => ⟨rfl, fun _ => rfl⟩⟩
  | some kv =>
      match kv with
      | .arr ks =>
          simp only [processDirectColor, hk] at h
          by_cases h3 : 3 ≤ ks.length
          · rw [if_pos h3] at h
            simp only [ob_eq_some, Option.some.injEq] at h
            obtain ⟨k', -, hout⟩ := h
            exact ⟨_, hout.symm, setKey_pointwise m "k" k' _ hk⟩
          · rw [if_neg h3] at h
            by_cases hh : headIsObj ks
            · rw [if_pos hh] at h
              simp only [ob_eq_some, Option.some.injEq] at h
              obtain ⟨ks', -, hout⟩ := h
              exact ⟨_, hout.symm, setKey_pointwise m "k" (.arr ks') _ hk⟩
            · rw [if_neg hh] at h
              simp only [Option.some.injEq] at h
              exact ⟨m, h.symm,
                List.forall₂_same.mpr fun p _ => ⟨rfl, fun _ => rfl⟩⟩
      | .num q =>
          simp only [processDirectColor, hk, Option.some.injEq] at h
          exact ⟨m, h.symm, List.forall₂_same.mpr fun p _ => ⟨rfl, fun _ => rfl⟩⟩
      | .str s =>
          simp only [processDirectColor, hk, Option.some.injEq] at h
          exact ⟨m, h.symm, List.forall₂_same.mpr fun p _ => ⟨rfl, fun _ => rfl⟩⟩
      | .bool q =>
          simp only [processDirectColor, hk, Option.some.injEq] at h
          exact ⟨m, h.symm, List.forall₂_same.mpr fun p _ => ⟨rfl, fun _ => rfl⟩⟩
      | .null =>
          simp only [processDirectColor, hk, Option.some.injEq] at h
          exact ⟨m, h.symm, List.forall₂_same.mpr fun p _ => ⟨rfl, fun _ => rfl⟩⟩
      | .obj m2 =>
          simp only [processDirectColor, hk, Option.some.injEq] at h
          exact ⟨m, h.symm, List.forall₂_same.mpr fun p _ => ⟨rfl, fun _ => rfl⟩⟩

/-- The gradient branch touches at most the `"k"` entry. -/
theorem processGradient_shallow (m : List (String × JSON)) (cfg : Config)
    (v' : JSON) (h : processGradient m cfg = some v') :
    ∃ m', v' = .obj m' ∧
      List.Forall₂ (fun a b : String × JSON =>
        b.1 = a.1 ∧ (a.1 ≠ "k" → b = a)) m m' := by
  cases hk : lookupKey m "k" with
  | none =>
      simp only [processGradient, hk, Option.some.injEq] at h
      exact ⟨m, h.symm, List.forall₂_same.mpr fun p _ => ⟨rfl, fun _ => rfl⟩⟩
  | some kv =>
      match kv with
      | .obj m2 =>
          cases hk2 : lookupKey m2 "k" with
          | none =>
              simp only [processGradient, hk, hk2, Option.some.injEq] at h
              exact ⟨m, h.symm,
                List.forall₂_same.mpr fun p _ => ⟨rfl, fun _ => rfl⟩⟩
          | some kv2 =>
              match kv2 with
              | .arr arr =>
                  simp only [processGradient, hk, hk2, ob_eq_some,
                    Option.some.injEq] at h
                  obtain ⟨arr', -, hout⟩ := h
                  exact ⟨_, hout.symm, setKey_pointwise m "k" _ _ hk⟩
              | .num q =>
                  simp only [processGradient, hk, hk2, Option.some.injEq] at h
                  exact ⟨m, h.symm,
                    List.forall₂_same.mpr fun p _ => ⟨rfl, fun _ => rfl⟩⟩
              | .str s =>
                  simp only [processGradient, hk, hk2, Option.some.injEq] at h
                  exact ⟨m, h.symm,
                    List.forall₂_same.mpr fun p _ => ⟨rfl, fun _ => rfl⟩⟩
              | .bool q =>
                  simp only [processGradient, hk, hk2, Option.some.injEq] at h
                  exact ⟨m, h.symm,
                    List.forall₂_same.mpr fun p _ => ⟨rfl, fun _ => rfl⟩⟩
              | .null =>
                  simp only [processGradient, hk, hk2, Option.some.injEq] at h
                  exact ⟨m, h.symm,
                    List.forall₂_same.mpr fun p _ => ⟨rfl, fun _ => rfl⟩⟩
              | .obj m3 =>
                  simp only [processGradient, hk, hk2, Option.some.injEq] at h
                  exact ⟨m, h.symm,
                    List.forall₂_same.mpr fun p _ => ⟨rfl, fun _ => rfl⟩⟩
      | .arr ks =>
          simp only [processGradient, hk, Option.some.injEq] at h
          exact ⟨m, h.symm, List.forall₂_same.mpr fun p _ => ⟨rfl, fun _ => rfl⟩⟩
      | .num q =>
          simp only [processGradient, hk, Option.some.injEq] at h
          exact ⟨m, h.symm, List.forall₂_same.mpr fun p _ => ⟨rfl, fun _ => rfl⟩⟩
      | .str s =>
          simp only [processGradient, hk, Option.some.injEq] at h
          exact ⟨m, h.symm, List.forall₂_same.mpr fun p _ => ⟨rfl, fun _ => rfl⟩⟩
      | .bool q =>
          simp only [processGradient, hk, Option.some.injEq] at h
          exact ⟨m, h.symm, List.forall₂_same.mpr fun p _ => ⟨rfl, fun _ => rfl⟩⟩
      | .null =>
          simp only [processGradient, hk, Option.some.injEq] at h
          exact ⟨m, h.symm, List.forall₂_same.mpr fun p _ => ⟨rfl, fun _ => rfl⟩⟩

/-- Entrywise version of C10 over the entry loop. -/
theorem recurseEntries_C10 (cfg : Config) : ∀ (kvs kvs' : List (String × JSON)),
    recurseEntries kvs cfg = some kvs' →
    List.Forall₂ (entrySpecC10 cfg) kvs kvs'
  | [], kvs', h => by
      simp only [recurseEntries, Option.some.injEq] at h
      subst h; exact .nil
  | (key, val) :: rest, kvs', h => by
      rw [recurseEntries_cons] at h
      simp only [ob_eq_some, Option.some.injEq] at h
      obtain ⟨val', hval, rest', hrest, hout⟩ := h
      subst hout
      refine .cons ⟨rfl, ?_, ?_⟩ (recurseEntries_C10 cfg rest rest' hrest)
      · intro m hkey hm
        subst hm
        simp only [processEntry] at hval
        rcases Bool.or_eq_true_iff.mp hkey with hc | hg
        · rw [if_pos hc] at hval
          obtain ⟨m', hm', hrel⟩ := processDirectColor_shallow m cfg val' hval
          exact ⟨m', hm', hrel⟩
        · by_cases hc : isColorKey key
          · rw [if_pos hc] at hval
            obtain ⟨m', hm', hrel⟩ :=
              processDirectColor_shallow m cfg val' hval
            exact ⟨m', hm', hrel⟩
          · rw [if_neg hc, if_pos hg] at hval
            obtain ⟨m', hm', hrel⟩ := processGradient_shallow m cfg val' hval
            exact ⟨m', hm', hrel⟩
      · intro hkey hobj
        match val, hobj, hval with
        | .num q, _, hval => exact hval
        | .str s, _, hval => exact hval
        | .bool q, _, hval => exact hval
        | .null, _, hval => exact hval
        | .arr xs, _, hval => exact hval

/-- C10: when a direct-color key or the gradient key maps to a mapping
value, `recurse` replaces at most that mapping's `"k"` entry and never
recurses into its other sub-fields (they are returned verbatim); when
such a key maps to a non-mapping value, the generic recursion processes
the value. -/
theorem C10_shallow_color_dispatch (cfg : Config)
    (kvs : List (String × JSON)) (out : JSON)
    (h : recurse (.obj kvs) cfg = some out) :
    ∃ kvs', out = .obj kvs' ∧ List.Forall₂ (entrySpecC10 cfg) kvs kvs' := by
  simp only [recurse, ob_eq_some, Option.some.injEq] at h
  obtain ⟨kvs', hkvs, hout⟩ := h
  exact ⟨kvs', hout.symm, recurseEntries_C10 cfg kvs kvs' hkvs⟩

theorem C10_shallow_color_dispatch_witness :
    recurse (.obj [("c", .obj [("x", .num 5)])]) ⟨1, 0, 1, 0⟩ =
      some (.obj [("c", .obj [("x", .num 5)])]) ∧
    ∃ kvs', (JSON.obj [("c", .obj [("x", .num 5)])]) = .obj kvs' ∧
      List.Forall₂ (entrySpecC10 ⟨1, 0, 1, 0⟩)
        [("c", .obj [("x", .num 5)])] kvs' :=
  by
  have hxk : (("x" : String) = "k") = False := eq_false (by decide)
  have heval : recurse (.obj [("c", .obj [("x", .num 5)])]) ⟨1, 0, 1, 0⟩ =
      some (.obj [("c", .obj [("x", .num 5)])]) := by
    norm_num [recurse, recurseEntries_cons, recurseEntries, processEntry,
      isColorKey, processDirectColor, lookupKey, hxk]
  exact ⟨heval, C10_shallow_color_dispatch ⟨1, 0, 1, 0⟩ _ _ heval⟩

/-- The entry loop on a one-entry dict. -/
theorem recurse_singleton (key : String) (val : JSON) (cfg : Config) :
    recurse (.obj [(key, val)]) cfg =
      (processEntry key val cfg).bind fun val' => some (.obj [(key, val')]) := by
  cases hP : processEntry key val cfg with
  | none =>
      simp only [recurse]
      rw [recurseEntries_cons]
      simp [hP]
  | some v' =>
      simp only [recurse]
      rw [recurseEntries_cons]
      simp [hP, recurseEntries]

/-- Writing back the value that is already present changes nothing. -/
theorem setKey_self : ∀ (m : List (String × JSON)) (s : String) (v : JSON),
    lookupKey m s = some v → setKey m s v = m
  | [], s, v, h => by simp [lookupKey] at h
  | (k, x) :: rest, s, v, h => by
      by_cases hk : k = s
      · subst hk
        rw [lookupKey, if_pos rfl, Option.some.injEq] at h
        subst h
        simp [setKey]
      · rw [lookupKey, if_neg hk] at h
        simp [setKey, hk, setKey_self rest s v h]

/-- The direct-color branch leaves an unrecognized `"k"` shape untouched. -/
theorem processDirectColor_skip (m : List (String × JSON)) (cfg : Config)
    (hks : ∀ ks, lookupKey m "k" = some (.arr ks) →
      ks.length < 3 ∧ headIsObj ks = false) :
    processDirectColor m cfg = some (.obj m) := by
  cases hk : lookupKey m "k" with
  | none => simp [processDirectColor, hk]
  | some kv =>
      match kv with
      | .arr ks =>
          obtain ⟨h1, h2⟩ := hks ks hk
          simp only [processDirectColor, hk]
          rw [if_neg (by omega), if_neg (by simp [h2])]
      | .num q => simp [processDirectColor, hk]
      | .str s => simp [processDirectColor, hk]
      | .bool q => simp [processDirectColor, hk]
      | .null => simp [processDirectColor, hk]
      | .obj m2 => simp [processDirectColor, hk]

/-- The gradient branch leaves a too-short stop array untouched. -/
theorem processGradient_skip (m m2 : List (String × JSON))
    (arr2 : List JSON) (cfg : Config)
    (hk : lookupKey m "k" = some (.obj m2))
    (hk2 : lookupKey m2 "k" = some (.arr arr2)) (hlen : arr2.length < 4) :
    processGradient m cfg = some (.obj m) := by
  simp only [processGradient, hk, hk2,
    adjust_gradient_arr_short cfg arr2 hlen, ob_some]
  rw [setKey_self m2 "k" (.arr arr2) hk2, setKey_self m "k" (.obj m2) hk]

/-- C4 (amended): the malformed shapes named by the spec are silently
skipped with the value left unchanged: an RGBA list with fewer than 3
elements, a `"k"` of a shape other than the recognized ones under a
direct-color key, and a gradient array too short to hold one full stop.
(The unamended totality claim fails: non-numeric contents inside a
recognized color shape raise a `TypeError`, see the counterexample.) -/
theorem C4_malformed_silently_skipped (cfg : Config) :
    (∀ xs : List JSON, xs.length < 3 →
      adjust_rgba (.arr xs) cfg = some (.arr xs)) ∧
    (∀ key m, isColorKey key = true →
      (∀ ks, lookupKey m "k" = some (.arr ks) →
        ks.length < 3 ∧ headIsObj ks = false) →
      recurse (.obj [(key, .obj m)]) cfg = some (.obj [(key, .obj m)])) ∧
    (∀ m m2 arr2, lookupKey m "k" = some (.obj m2) →
      lookupKey m2 "k" = some (.arr arr2) → arr2.length < 4 →
      recurse (.obj [("g", .obj m)]) cfg = some (.obj [("g", .obj m)])) := by
  refine ⟨?_, ?_, ?_⟩
  · intro xs hlen
    match xs, hlen with
    | [], _ => rfl
    | [a], _ => rfl
    | [a, b], _ => rfl
  · intro key m hck hks
    rw [recurse_singleton]
    simp only [processEntry, if_pos hck, processDirectColor_skip m cfg hks]
    rfl
  · intro m m2 arr2 hk hk2 hlen
    rw [recurse_singleton]
    have hg : isColorKey "g" = false := by decide
    simp only [processEntry, hg, Bool.false_eq_true, if_false]
    rw [if_pos (by decide), processGradient_skip m m2 arr2 cfg hk hk2 hlen]
    rfl

/-- C4 counterexample: `recurse` is not total.  On the document
`{"c": {"k": ["a", "b", "c"]}}` — a malformed RGBA whose entries are
strings — the static branch fires (the list has length 3) and the color
arithmetic raises `TypeError` instead of skipping the value. -/
theorem C4_counterexample :
    recurse (.obj [("c", .obj [("k",
        .arr [.str "a", .str "b", .str "c"])])]) ⟨1, 0, 1, 0⟩ = none := by
  norm_num [recurse, recurseEntries, processDirectColor, lookupKey,
    adjust_rgba, adjustTripletJ, toNum, isColorKey]

theorem C4_malformed_silently_skipped_witness :
    (([JSON.num 1] : List JSON).length < 3 ∧
      adjust_rgba (.arr [.num 1]) ⟨1, 0, 1, 0⟩ = some (.arr [.num 1])) ∧
    (isColorKey "c" = true ∧
      recurse (.obj [("c", .obj [("k", .num 7)])]) ⟨1, 0, 1, 0⟩ =
        some (.obj [("c", .obj [("k", .num 7)])])) ∧
    (recurse (.obj [("g", .obj [("k", .obj [("k", .arr [.num 0])])])])
        ⟨1, 0, 1, 0⟩ =
      some (.obj [("g", .obj [("k", .obj [("k", .arr [.num 0])])])])) := by
  obtain ⟨h1, h2, h3⟩ := C4_malformed_silently_skipped ⟨1, 0, 1, 0⟩
  refine ⟨⟨by norm_num, h1 [.num 1] (by norm_num)⟩, ⟨by decide, ?_⟩, ?_⟩
  · refine h2 "c" [("k", .num 7)] (by decide) ?_
    intro ks hks
    simp [lookupKey] at hks
  · exact h3 [("k", .obj [("k", .arr [.num 0])])] [("k", .arr [.num 0])]
      [.num 0] (by simp [lookupKey]) (by simp [lookupKey]) (by norm_num)

/-- C1: evaluation of the code at the failing input.  A keyframed color
with three keyframe entries (each a mapping with an `"s"` RGBA) satisfies
`len(k) >= 3`, so the static branch fires first and feeds the keyframe
dicts into the float arithmetic, raising `TypeError` — the keyframe
branch claimed by the spec is never reached. -/
theorem C1_keyframe_crash :
    recurse (.obj [("c", .obj [("k", .arr
      [.obj [("s", .arr [.num 1, .num 0, .num 0, .num 1])],
       .obj [("s", .arr [.num 0, .num 1, .num 0, .num 1])],
       .obj [("s", .arr [.num 0, .num 0, .num 1, .num 1])]])])])
      ⟨1, 0, 1, 0⟩ = none := by
  norm_num [recurse, recurseEntries, processDirectColor, lookupKey,
    adjust_rgba, adjustTripletJ, toNum, isColorKey]

/-! ## Frame theorems: values outside recognized color shapes are verbatim -/

theorem kOnly_refl (p : String × JSON) : kOnly p p := ⟨rfl, fun _ => rfl⟩

theorem gradEntry_refl (p : String × JSON) : gradEntry p p :=
  ⟨rfl, fun _ => rfl, fun _ => Or.inl rfl⟩

/-- Overwriting the existing key `"k"` with a `gradKFrame`-related value
relates all entries by `gradEntry`. -/
theorem setKey_grad : ∀ (m : List (String × JSON)) (v w : JSON),
    lookupKey m "k" = some v → gradKFrame v w →
    List.Forall₂ gradEntry m (setKey m "k" w)
  | [], v, w, h, _ => by simp [lookupKey] at h
  | (k, x) :: rest, v, w, h, hg => by
      by_cases hk : k = "k"
      · subst hk
        rw [lookupKey, if_pos rfl, Option.some.injEq] at h
        subst h
        simp only [setKey, if_pos rfl]
        refine .cons ⟨rfl, fun hne => absurd rfl hne, fun _ => hg⟩ ?_
        exact List.forall₂_same.mpr fun p _ => gradEntry_refl p
      · rw [lookupKey, if_neg hk] at h
        simp only [setKey, if_neg hk]
        exact .cons (gradEntry_refl (k, x)) (setKey_grad rest v w h hg)

/-- The direct-color branch touches at most the `"k"` entry (`kOnly`
form). -/
theorem processDirectColor_frame (m : List (String × JSON)) (cfg : Config)
    (v' : JSON) (h : processDirectColor m cfg = some v') :
    ∃ m', v' = .obj m' ∧ List.Forall₂ kOnly m m' := by
  obtain ⟨m', hm', hrel⟩ := processDirectColor_shallow m cfg v' h
  exact ⟨m', hm', hrel.imp fun a b hab => hab⟩

/-- The gradient branch obeys the two-level frame: entries of the dict
under `"g"` other than `"k"` are verbatim, and inside its `"k"` dict only
that dict's own `"k"` entry may change. -/
theorem processGradient_frame (m : List (String × JSON)) (cfg : Config)
    (v' : JSON) (h : processGradient m cfg = some v') :
    ∃ m', v' = .obj m' ∧ List.Forall₂ gradEntry m m' := by
  cases hk : lookupKey m "k" with
  | none =>
      simp only [processGradient, hk, Option.some.injEq] at h
      exact ⟨m, h.symm, List.forall₂_same.mpr fun p _ => gradEntry_refl p⟩
  | some kv =>
      match kv with
      | .obj m2 =>
          cases hk2 : lookupKey m2 "k" with
          | none =>
              simp only [processGradient, hk, hk2, Option.some.injEq] at h
              exact ⟨m, h.symm,
                List.forall₂_same.mpr fun p _ => gradEntry_refl p⟩
          | some kv2 =>
              match kv2 with
              | .arr arr =>
                  simp only [processGradient, hk, hk2, ob_eq_some,
                    Option.some.injEq] at h
                  obtain ⟨arr', -, hout⟩ := h
                  refine ⟨_, hout.symm, setKey_grad m (.obj m2) _ hk ?_⟩
                  exact Or.inr ⟨m2, _, rfl, rfl,
                    (setKey_pointwise m2 "k" (.arr arr') _ hk2).imp
                      fun a b hab => hab⟩
              | .num q =>
                  simp only [processGradient, hk, hk2, Option.some.injEq] at h
                  exact ⟨m, h.symm,
                    List.forall₂_same.mpr fun p _ => gradEntry_refl p⟩
              | .str s =>
                  simp only [processGradient, hk, hk2, Option.some.injEq] at h
                  exact ⟨m, h.symm,
                    List.forall₂_same.mpr fun p _ => gradEntry_refl p⟩
              | .bool q =>
                  simp only [processGradient, hk, hk2, Option.some.injEq] at h
                  exact ⟨m, h.symm,
                    List.forall₂_same.mpr fun p _ => gradEntry_refl p⟩
              | .null =>
                  simp only [processGradient, hk, hk2, Option.some.injEq] at h
                  exact ⟨m, h.symm,
                    List.forall₂_same.mpr fun p _ => gradEntry_refl p⟩
              | .obj m3 =>
                  simp only [processGradient, hk, hk2, Option.some.injEq] at h
                  exact ⟨m, h.symm,
                    List.forall₂_same.mpr fun p _ => gradEntry_refl p⟩
      | .arr ks =>
          simp only [processGradient, hk, Option.some.injEq] at h
          exact ⟨m, h.symm, List.forall₂_same.mpr fun p _ => gradEntry_refl p⟩
      | .num q =>
          simp only [processGradient, hk, Option.some.injEq] at h
          exact ⟨m, h.symm, List.forall₂_same.mpr fun p _ => gradEntry_refl p⟩
      | .str s =>
          simp only [processGradient, hk, Option.some.injEq] at h
          exact ⟨m, h.symm, List.forall₂_same.mpr fun p _ => gradEntry_refl p⟩
      | .bool q =>
          simp only [processGradient, hk, Option.some.injEq] at h
          exact ⟨m, h.symm, List.forall₂_same.mpr fun p _ => gradEntry_refl p⟩
      | .null =>
          simp only [processGradient, hk, Option.some.injEq] at h
          exact ⟨m, h.symm, List.forall₂_same.mpr fun p _ => gradEntry_refl p⟩

mutual
/-- A successful `recurse` obeys the frame relation. -/
theorem recurse_frame : ∀ (j : JSON) (cfg : Config) (j' : JSON),
    recurse j cfg = some j' → framePres j j'
  | .obj kvs, cfg, j', h => by
      simp only [recurse, ob_eq_some, Option.some.injEq] at h
      obtain ⟨kvs', hkvs, hout⟩ := h
      subst hout
      simp only [framePres]
      exact recurseEntries_frame kvs cfg kvs' hkvs
  | .arr xs, cfg, j', h => by
      simp only [recurse, ob_eq_some, Option.some.injEq] at h
      obtain ⟨xs', hxs, hout⟩ := h
      subst hout
      simp only [framePres]
      exact recurseElems_frame xs cfg xs' hxs
  | .num q, cfg, j', h => by
      simp only [recurse, Option.some.injEq] at h
      subst h
      simp only [framePres]
  | .str s, cfg, j', h => by
      simp only [recurse, Option.some.injEq] at h
      subst h
      simp only [framePres]
  | .bool q, cfg, j', h => by
      simp only [recurse, Option.some.injEq] at h
      subst h
      simp only [framePres]
  | .null, cfg, j', h => by
      simp only [recurse, Option.some.injEq] at h
      subst h
      simp only [framePres]
termination_by j => sizeOf j
decreasing_by all_goals (simp_wf <;> omega)

/-- The entry loop obeys the entry-wise frame relation. -/
theorem recurseEntries_frame : ∀ (kvs : List (String × JSON)) (cfg : Config)
    (kvs' : List (String × JSON)), recurseEntries kvs cfg = some kvs' →
    fpEntries kvs kvs'
  | [], cfg, kvs', h => by
      simp only [recurseEntries, Option.some.injEq] at h
      subst h
      simp only [fpEntries]
  | (key, val) :: rest, cfg, kvs', h => by
      rw [recurseEntries_cons] at h
      simp only [ob_eq_some, Option.some.injEq] at h
      obtain ⟨val', hval, rest', hrest, hout⟩ := h
      subst hout
      simp only [fpEntries]
      refine ⟨?_, processEntry_frame key val cfg val' hval,
        recurseEntries_frame rest cfg rest' hrest⟩
      trivial
termination_by kvs => sizeOf kvs
decreasing_by all_goals (simp_wf <;> omega)

/-- The element loop obeys the pointwise frame relation. -/
theorem recurseElems_frame : ∀ (xs : List JSON) (cfg : Config)
    (xs' : List JSON), recurseElems xs cfg = some xs' → fpElems xs xs'
  | [], cfg, xs', h => by
      simp only [recurseElems, Option.some.injEq] at h
      subst h
      simp only [fpElems]
  | x :: rest, cfg, xs', h => by
      simp only [recurseElems, ob_eq_some, Option.some.injEq] at h
      obtain ⟨x', hx, rest', hrest, hout⟩ := h
      subst hout
      simp only [fpElems]
      exact ⟨recurse_frame x cfg x' hx,
        recurseElems_frame rest cfg rest' hrest⟩
termination_by xs => sizeOf xs
decreasing_by all_goals (simp_wf <;> omega)

/-- One entry of the loop obeys its frame guarantee. -/
theorem processEntry_frame : ∀ (key : String) (val : JSON) (cfg : Config)
    (val' : JSON), processEntry key val cfg = some val' →
    fpEntry key val val'
  | key, .obj m, cfg, val', h => by
      simp only [processEntry] at h
      simp only [fpEntry]
      by_cases hck : isColorKey key
      · rw [if_pos hck] at h
        rw [if_pos hck]
        exact processDirectColor_frame m cfg val' h
      · rw [if_neg hck] at h
        rw [if_neg hck]
        by_cases hg : key == "g"
        · rw [if_pos hg] at h
          rw [if_pos hg]
          exact processGradient_frame m cfg val' h
        · rw [if_neg hg] at h
          rw [if_neg hg]
          exact recurse_frame (.obj m) cfg val' h
  | key, .arr xs, cfg, val', h => by
      simp only [processEntry] at h
      simp only [fpEntry]
      exact recurse_frame (.arr xs) cfg val' h
  | key, .num q, cfg, val', h => by
      simp only [processEntry] at h
      simp only [fpEntry]
      exact recurse_frame (.num q) cfg val' h
  | key, .str s, cfg, val', h => by
      simp only [processEntry] at h
      simp only [fpEntry]
      exact recurse_frame (.str s) cfg val' h
  | key, .bool q, cfg, val', h => by
      simp only [processEntry] at h
      simp only [fpEntry]
      exact recurse_frame (.bool q) cfg val' h
  | key, .null, cfg, val', h => by
      simp only [processEntry] at h
      simp only [fpEntry]
      exact recurse_frame .null cfg val' h
termination_by key val => sizeOf val + 1
decreasing_by all_goals (simp_wf <;> omega)
end

/-- C5 (amended): a successful run of the locator (i) never removes,
reorders or adds mapping keys anywhere, and changes array lengths only by
replacing an adjusted RGBA sequence with its 4-element normalization
(`KeysPreserved`); (ii) obeys the frame relation `framePres`: every value
not reachable through a recognized color shape — the `"k"` entry of a
dict under `"c"`/`"fc"`/`"sc"`/`"lc"` and, for `"g"`, the `"k"` entry of
the dict below `"g"` together with that inner dict's own `"k"` entry — is
returned verbatim, structurally and numerically identical; and (iii)
returns any tree without color-key entries identical as a whole.  (The
unamended claim that sequence element counts are always preserved fails:
a length-3 RGBA list becomes length 4, see the counterexample.) -/
theorem C5_structure_preservation (cfg : Config) (j j' : JSON)
    (h : recurse j cfg = some j') :
    KeysPreserved j j' ∧ framePres j j' ∧
      (noColorKeys j = true → j' = j) := by
  refine ⟨recurse_KP j cfg j' h, recurse_frame j cfg j' h, fun hnck => ?_⟩
  rw [recurse_nck j cfg hnck, Option.some.injEq] at h
  exact h.symm

theorem C5_structure_preservation_witness :
    recurse (.obj [("c", .obj [("a", .num 7),
        ("k", .arr [.num 1, .num 0, .num 0])])]) ⟨1, 0, 1, 0⟩ =
      some (.obj [("c", .obj [("a", .num 7),
        ("k", .arr [.num 1, .num 0, .num 0, .num 1])])]) ∧
    (KeysPreserved
        (.obj [("c", .obj [("a", .num 7),
          ("k", .arr [.num 1, .num 0, .num 0])])])
        (.obj [("c", .obj [("a", .num 7),
          ("k", .arr [.num 1, .num 0, .num 0, .num 1])])]) ∧
      framePres
        (.obj [("c", .obj [("a", .num 7),
          ("k", .arr [.num 1, .num 0, .num 0])])])
        (.obj [("c", .obj [("a", .num 7),
          ("k", .arr [.num 1, .num 0, .num 0, .num 1])])]) ∧
      (noColorKeys (.obj [("c", .obj [("a", .num 7),
          ("k", .arr [.num 1, .num 0, .num 0])])]) = true →
        JSON.obj [("c", .obj [("a", .num 7),
          ("k", .arr [.num 1, .num 0, .num 0, .num 1])])] =
          .obj [("c", .obj [("a", .num 7),
            ("k", .arr [.num 1, .num 0, .num 0])])])) := by
  have hak : (("a" : String) = "k") = False := eq_false (by decide)
  have heval : recurse (.obj [("c", .obj [("a", .num 7),
      ("k", .arr [.num 1, .num 0, .num 0])])]) ⟨1, 0, 1, 0⟩ =
      some (.obj [("c", .obj [("a", .num 7),
        ("k", .arr [.num 1, .num 0, .num 0, .num 1])])]) := by
    norm_num [recurse, recurseEntries, processDirectColor, lookupKey,
      setKey, adjust_rgba, adjustTripletJ, toNum, adjust_color_triplet,
      applyHue, satContrastBright, lerp, clamp01, isColorKey, min_def,
      max_def, hak]
  exact ⟨heval, C5_structure_preservation ⟨1, 0, 1, 0⟩ _ _ heval⟩
